import Mathlib

/-!
Verification development for the IS20 token ledger engine
(src/src/token/api/src/canister/is20_transactions.rs and the data model it
uses).  Rust `u128` token amounts are embedded as `Nat` with explicit
checked arithmetic bounded by `2 ^ 128`; the balance map, the claims map and
the transaction ledger are embedded as association lists; every operation is
a pure function from a canister state (plus the ambient caller and clock,
passed as arguments) to a new state and a `Except TxError` result, mirroring
the Rust control flow branch by branch.
-/

namespace IS20

/-- Modelled from the spec: opaque, comparable, hashable owner identifiers
(`candid::Principal`, an external collaborator) are embedded as `Nat`. -/
abbrev Principal := Nat

/-- Modelled from the spec: a subaccount is a 32-byte array; embedded as a
list of bytes (numbers). -/
abbrev Subaccount := List Nat

/-- Modelled from the spec: the `Default` value of a subaccount is the
all-zero 32-byte array (`[0u8; 32]`). -/
def defaultSubaccount : Subaccount := List.replicate 32 0

/-- Modelled from the spec: an `Account` is an owner plus an optional
disambiguating subaccount (`crate::account::Account`, not under src/);
two accounts are equal iff owner and subaccount are equal. -/
structure Account where
  owner : Principal
  subaccount : Option Subaccount
deriving DecidableEq

/-- Modelled from the spec: `Account::new` pairs the owner with the optional
subaccount as given. -/
def Account.new (owner : Principal) (subaccount : Option Subaccount) : Account :=
  ⟨owner, subaccount⟩

/-- Modelled from the spec: the legacy `AccountIdentifier` is derived from an
owner and a (non-optional) subaccount; the derivation is embedded as the
injective pairing of its inputs. -/
abbrev AccountId := Principal × Subaccount

/-- Modelled from the spec: `AccountIdentifier::new(owner, Some(subaccount))`. -/
def accountIdentifierNew (owner : Principal) (subaccount : Subaccount) : AccountId :=
  (owner, subaccount)

/-- The modulus of the 128-bit unsigned `Tokens128` amount type. -/
def TOKENS_MOD : Nat := 2 ^ 128

/-- Checked addition of `Tokens128` values (`impl Add for Tokens128` returns
`Option<Tokens128>`): `none` exactly when the mathematical sum overflows. -/
def tokAdd (a b : Nat) : Option Nat :=
  if a + b < TOKENS_MOD then some (a + b) else none

/-- Checked subtraction of `Tokens128` values: `none` exactly when the
subtrahend exceeds the minuend. -/
def tokSub (a b : Nat) : Option Nat :=
  if b ≤ a then some (a - b) else none

/-- The error taxonomy of the engine (`crate::error::TxError`), with exactly
the payloads the transfer code constructs. -/
inductive TxError where
  | BadFee (expected_fee : Nat)
  | InsufficientFunds (balance : Nat)
  | AmountOverflow
  | AmountTooSmall
  | TooOld (allowed_window_nanos : Nat)
  | CreatedInFuture (ledger_time : Nat)
  | Duplicate (duplicate_of : Nat)
  | ClaimNotAllowed
deriving DecidableEq

deriving instance DecidableEq for Except

/-- Operation kind of a transaction record (src/src/token/api/src/types/tx_record.rs). -/
inductive Operation where
  | Transfer
  | TransferFrom
  | Approve
  | Mint
  | Burn
  | Auction
deriving DecidableEq

/-- Status of a transaction record (always `Succeeded` for records created by
the operations embedded here). -/
inductive TransactionStatus where
  | Succeeded
deriving DecidableEq

/-- A transaction record (src/src/token/api/src/types/tx_record.rs, plus the
`memo` field which the duplicate scan in is20_transactions.rs reads). -/
structure TxRecord where
  caller : Option Account
  index : Nat
  from_ : Account
  to_ : Account
  amount : Nat
  fee : Nat
  timestamp : Nat
  memo : Option (List Nat)
  status : TransactionStatus
  operation : Operation
deriving DecidableEq

/-- Arguments of a transfer (`crate::types::TransferArgs`), as read by
is20_transactions.rs. -/
structure TransferArgs where
  from_subaccount : Option Subaccount
  to_ : Account
  amount : Nat
  fee : Option Nat
  memo : Option (List Nat)
  created_at_time : Option Nat
deriving DecidableEq

/-- `TransferArgs::with_amount`: the same arguments with the amount replaced. -/
def TransferArgs.with_amount (args : TransferArgs) (amount : Nat) : TransferArgs :=
  { args with amount := amount }

/-- One leg of a batch transfer (`crate::types::BatchTransferArgs`). -/
structure BatchTransferArgs where
  receiver : Account
  amount : Nat
deriving DecidableEq

/-- First-match lookup in an association list of account balances. -/
def lookupBal : List (Account × Nat) → Account → Nat
  | [], _ => 0
  | p :: rest, a => if p.1 = a then p.2 else lookupBal rest a

/-- Remove every entry with the given key from an association list. -/
def removeKey (a : Account) : List (Account × Nat) → List (Account × Nat)
  | [] => []
  | p :: rest => if p.1 = a then removeKey a rest else p :: removeKey a rest

/-- Modelled from the spec: the Balances Store, a mapping `Account → Amount`
(`crate::state::Balances`, not under src/), embedded as an association
list. -/
structure Balances where
  entries : List (Account × Nat)
deriving DecidableEq

/-- `Balances::default()`: the empty store. -/
def Balances.empty : Balances := ⟨[]⟩

/-- Modelled from the spec: `get(account)` defaults to zero for absent keys. -/
def Balances.balance_of (b : Balances) (a : Account) : Nat :=
  lookupBal b.entries a

/-- Removing an account's entry from the store. -/
def Balances.removeAcc (b : Balances) (a : Account) : Balances :=
  ⟨removeKey a b.entries⟩

/-- Plain upsert of an entry (used by `mint`, whose
`get_mut_or_insert_default` writes the entry directly). -/
def Balances.insertAcc (b : Balances) (a : Account) (v : Nat) : Balances :=
  ⟨(a, v) :: removeKey a b.entries⟩

/-- Modelled from the spec: `set(account, amount)` removes the entry if the
amount is zero, else upserts. -/
def Balances.set_balance (b : Balances) (a : Account) (v : Nat) : Balances :=
  if v = 0 then b.removeAcc a else b.insertAcc a v

/-- Modelled from the spec: `apply(diff)` merges a caller-supplied diff into
the store entry-by-entry (each entry written through `set`). -/
def Balances.apply_change (b : Balances) (diff : Balances) : Balances :=
  diff.entries.foldl (fun acc p => acc.set_balance p.1 p.2) b

/-- The keys of the store. -/
def Balances.keys (b : Balances) : List Account :=
  b.entries.map Prod.fst

/-- The sum of all entries of the store. -/
def Balances.total (b : Balances) : Nat :=
  (b.entries.map Prod.snd).sum

/-- Well-formedness: no two entries share a key. -/
def Balances.wf (b : Balances) : Prop :=
  b.keys.Nodup

/-- Positivity: no stored entry has value zero. -/
def Balances.pos (b : Balances) : Prop :=
  ∀ p ∈ b.entries, p.2 ≠ 0

/-- Modelled from the spec: the `FeeRatio` describes how a collected fee
splits between the fee recipient and the auction escrow; the sum of the
split equals the input fee exactly, the rounding remainder going to the fee
recipient.  It is embedded as the function giving the auction share. -/
structure FeeRatio where
  auctionShare : Nat → Nat
  share_le : ∀ f, auctionShare f ≤ f

/-- Modelled from the spec: `FeeRatio::get_value(fee)` returns
`(owner_fee, auction_fee)` with `owner_fee + auction_fee = fee`. -/
def FeeRatio.get_value (r : FeeRatio) (fee : Nat) : Nat × Nat :=
  (fee - r.auctionShare fee, r.auctionShare fee)

/-- Modelled from the spec: the distinguished principal owning the
auction-escrow account (`is20_auction::auction_account`, not under src/). -/
def auctionPrincipal : Principal := 0

/-- Modelled from the spec: the reserved auction-escrow account. -/
def auction_account : Account := Account.new auctionPrincipal none

/-- Modelled from the spec: the append-only transaction Ledger
(`state.ledger`, not under src/), an ordered list of records with strictly
increasing gapless zero-based indices. -/
structure Ledger where
  records : List TxRecord
deriving DecidableEq

/-- Modelled from the spec: `Ledger::transfer` appends a Transfer record
(fields as in `TxRecord::transfer` of tx_record.rs, timestamp being the
validated transaction timestamp) and returns its index. -/
def Ledger.transferRec (l : Ledger) (from_ to_ : Account) (amount fee : Nat)
    (memo : Option (List Nat)) (created_at_time : Nat) : Ledger × Nat :=
  let index := l.records.length
  let rec1 : TxRecord :=
    { caller := some from_, index := index, from_ := from_, to_ := to_,
      amount := amount, fee := fee, timestamp := created_at_time, memo := memo,
      status := .Succeeded, operation := .Transfer }
  (⟨l.records ++ [rec1]⟩, index)

/-- Modelled from the spec: `Ledger::mint` appends a Mint record
(fields as in `TxRecord::mint` of tx_record.rs: zero fee, current time) and
returns its index. -/
def Ledger.mintRec (l : Ledger) (from_ to_ : Account) (amount : Nat) (now : Nat) :
    Ledger × Nat :=
  let index := l.records.length
  let rec1 : TxRecord :=
    { caller := some from_, index := index, from_ := from_, to_ := to_,
      amount := amount, fee := 0, timestamp := now, memo := none,
      status := .Succeeded, operation := .Mint }
  (⟨l.records ++ [rec1]⟩, index)

/-- Modelled from the spec: `Ledger::burn` appends a Burn record
(fields as in `TxRecord::burn` of tx_record.rs: `to` equals `from`, zero fee,
current time) and returns its index. -/
def Ledger.burnRec (l : Ledger) (caller from_ : Account) (amount : Nat) (now : Nat) :
    Ledger × Nat :=
  let index := l.records.length
  let rec1 : TxRecord :=
    { caller := some caller, index := index, from_ := from_, to_ := from_,
      amount := amount, fee := 0, timestamp := now, memo := none,
      status := .Succeeded, operation := .Burn }
  (⟨l.records ++ [rec1]⟩, index)

/-- Modelled from the spec: `Ledger::batch_transfer` appends one Transfer
record per leg, all with the shared fee, and returns their indices. -/
def Ledger.batchRec (l : Ledger) (from_ : Account) (fee now : Nat) :
    List BatchTransferArgs → Ledger × List Nat
  | [] => (l, [])
  | t :: rest =>
      let step := l.transferRec from_ t.receiver t.amount fee none now
      let restRes := Ledger.batchRec step.1 from_ fee now rest
      (restRes.1, step.2 :: restRes.2)

/-- First-match lookup in the claims map. -/
def lookupClaim : List (AccountId × Nat) → AccountId → Nat
  | [], _ => 0
  | p :: rest, a => if p.1 = a then p.2 else lookupClaim rest a

/-- Remove a claim entry by key. -/
def removeClaimKey (a : AccountId) : List (AccountId × Nat) → List (AccountId × Nat)
  | [] => []
  | p :: rest => if p.1 = a then removeClaimKey a rest else p :: removeClaimKey a rest

/-- The canister state visible to the embedded operations: the Balances
Store, the Claims map, the Ledger, and the fee configuration
(`stats.fee_info()` and `bidding_state.fee_ratio`). -/
structure CanisterState where
  balances : Balances
  claims : List (AccountId × Nat)
  ledger : Ledger
  fee : Nat
  fee_to : Principal
  fee_ratio : FeeRatio

/-- Modelled from the spec: the transaction window within which a submitted
`created_at_time` is accepted (`icrc1_transfer::TX_WINDOW`, supplied
externally; 24 hours in nanoseconds). -/
def TX_WINDOW : Nat := 86400000000000

/-- Modelled from the spec: the permitted future drift of a submitted
`created_at_time` (`icrc1_transfer::PERMITTED_DRIFT`, supplied externally;
two minutes in nanoseconds). -/
def PERMITTED_DRIFT : Nat := 120000000000

/-- The duplicate test applied to one visited ledger record
(is20_transactions.rs lines 150-155): timestamp, from, to, memo and amount
must equal the submitted values, and the fee must equal the submitted fee
when one was supplied (`tx.fee == transfer_args.fee.unwrap_or(tx.fee)`). -/
def txMatches (from_ to_ : Account) (args : TransferArgs) (cat : Nat)
    (tx : TxRecord) : Bool :=
  tx.timestamp == cat && tx.from_ == from_ && tx.to_ == to_ &&
    tx.memo == args.memo && tx.amount == args.amount &&
    tx.fee == args.fee.getD tx.fee

/-- The newest-to-oldest ledger scan of `validate_and_get_tx_ts`
(is20_transactions.rs lines 145-161): the input list is the reversed ledger;
the scan stops at the first record older than `TX_WINDOW`
(`now.saturating_sub(tx.timestamp) > TX_WINDOW`, saturating subtraction
being truncated `Nat` subtraction) and reports the index of the first
matching record visited. -/
def scanDuplicate (now : Nat) (from_ to_ : Account) (args : TransferArgs)
    (cat : Nat) : List TxRecord → Option Nat
  | [] => none
  | tx :: rest =>
      if now - tx.timestamp > TX_WINDOW then none
      else if txMatches from_ to_ args cat tx then some tx.index
      else scanDuplicate now from_ to_ args cat rest

/-- `validate_and_get_tx_ts` (is20_transactions.rs lines 124-170): timestamp
window checks and duplicate scan; returns the transaction timestamp
(`created_at_time` when supplied, the current time otherwise). -/
def validate_and_get_tx_ts (st : CanisterState) (caller : Principal)
    (args : TransferArgs) (now : Nat) : Except TxError Nat :=
  let from_ := Account.new caller args.from_subaccount
  match args.created_at_time with
  | some cat =>
      if now - cat > TX_WINDOW then
        .error (.TooOld TX_WINDOW)
      else if cat - now > PERMITTED_DRIFT then
        .error (.CreatedInFuture now)
      else
        match scanDuplicate now from_ args.to_ args cat st.ledger.records.reverse with
        | some idx => .error (.Duplicate idx)
        | none => .ok cat
  | none => .ok now

/-- The `if let Some(requested_fee) = transfer.fee` guard of `is20_transfer`:
true exactly when a fee was requested and differs from the configured fee. -/
def badFeeCheck : Option Nat → Nat → Bool
  | some requested_fee, fee => fee != requested_fee
  | none, _ => false

/-- `transfer_internal` (is20_transactions.rs lines 52-103): stage the
current balances of `from`, `to`, `fee_to` and the auction account into a
fresh diff, debit `amount + fee` from `from` (checked, `InsufficientFunds`
with the staged `from` balance on overflow or underflow), credit `amount` to
`to` and the fee split to `fee_to` and the auction account (checked,
`AmountOverflow`), and only then commit the diff with one `apply_change`. -/
def transfer_internal (balances : Balances) (from_ to_ : Account)
    (amount fee : Nat) (fee_to : Account) (auction_fee_ratio : FeeRatio) :
    Except TxError Balances :=
  let u0 :=
    ((((Balances.empty.set_balance from_ (balances.balance_of from_)).set_balance
        to_ (balances.balance_of to_)).set_balance
        fee_to (balances.balance_of fee_to)).set_balance
        auction_account (balances.balance_of auction_account))
  let from_balance := u0.balance_of from_
  match tokAdd amount fee with
  | none => .error (.InsufficientFunds from_balance)
  | some amount_with_fee =>
    match tokSub from_balance amount_with_fee with
    | none => .error (.InsufficientFunds from_balance)
    | some updated_from_balance =>
      let u1 := u0.set_balance from_ updated_from_balance
      let to_balance := u1.balance_of to_
      match tokAdd to_balance amount with
      | none => .error .AmountOverflow
      | some updated_to_balance =>
        let u2 := u1.set_balance to_ updated_to_balance
        let owner_fee := (auction_fee_ratio.get_value fee).1
        let auction_fee := (auction_fee_ratio.get_value fee).2
        let fee_to_balance := u2.balance_of fee_to
        match tokAdd fee_to_balance owner_fee with
        | none => .error .AmountOverflow
        | some updated_fee_to_balance =>
          let u3 := u2.set_balance fee_to updated_fee_to_balance
          let auction_balance := u3.balance_of auction_account
          match tokAdd auction_balance auction_fee with
          | none => .error .AmountOverflow
          | some updated_auction_balance =>
            let u4 := u3.set_balance auction_account updated_auction_balance
            .ok (balances.apply_change u4)

/-- `is20_transfer` (is20_transactions.rs lines 16-50): validate the
timestamp and scan for duplicates, check the requested fee, run
`transfer_internal`, and on success append a Transfer record and return its
index; every error path leaves the state untouched. -/
def is20_transfer (st : CanisterState) (caller : Principal)
    (args : TransferArgs) (now : Nat) : CanisterState × Except TxError Nat :=
  let from_ := Account.new caller args.from_subaccount
  let to_ := args.to_
  match validate_and_get_tx_ts st caller args now with
  | .error e => (st, .error e)
  | .ok created_at_time =>
    let fee := st.fee
    let fee_to := Account.new st.fee_to none
    if badFeeCheck args.fee fee then (st, .error (.BadFee fee))
    else
      match transfer_internal st.balances from_ to_ args.amount fee fee_to st.fee_ratio with
      | .error e => (st, .error e)
      | .ok balances' =>
          let app := st.ledger.transferRec from_ to_ args.amount fee args.memo created_at_time
          ({ st with balances := balances', ledger := app.1 }, .ok app.2)

/-- `transfer_include_fee` (is20_transactions.rs lines 110-122): subtract the
configured fee from the gross amount (checked; `AmountTooSmall` on underflow
or when the remainder is zero) and delegate to `is20_transfer` with the
fee-exclusive amount. -/
def transfer_include_fee (st : CanisterState) (caller : Principal)
    (args : TransferArgs) (now : Nat) : CanisterState × Except TxError Nat :=
  let fee := st.fee
  match tokSub args.amount fee with
  | none => (st, .error .AmountTooSmall)
  | some adjusted_amount =>
      if adjusted_amount = 0 then (st, .error .AmountTooSmall)
      else is20_transfer st caller (args.with_amount adjusted_amount) now

/-- `mint` (is20_transactions.rs lines 172-186): `get_mut_or_insert_default`
materialises the recipient's entry (inserting a zero entry when absent),
the checked add fails with `AmountOverflow` leaving the balances otherwise
untouched, and on success the entry is overwritten with the new balance and
a Mint record is appended. -/
def mint (st : CanisterState) (caller : Principal) (to_ : Account)
    (amount : Nat) (now : Nat) : CanisterState × Except TxError Nat :=
  let balances0 :=
    if to_ ∈ st.balances.keys then st.balances else st.balances.insertAcc to_ 0
  let balance := st.balances.balance_of to_
  match tokAdd balance amount with
  | none => ({ st with balances := balances0 }, .error .AmountOverflow)
  | some new_balance =>
      let app := st.ledger.mintRec (Account.new caller none) to_ amount now
      ({ st with balances := balances0.insertAcc to_ new_balance, ledger := app.1 },
        .ok app.2)

/-- `burn` (is20_transactions.rs lines 218-240): reject a nonzero burn from a
zero balance, checked-subtract (`InsufficientFunds` with the original
balance on underflow), remove the entry when the new balance is exactly zero
(else store it), append a Burn record and return its index. -/
def burn (st : CanisterState) (caller : Principal) (from_ : Account)
    (amount : Nat) (now : Nat) : CanisterState × Except TxError Nat :=
  let balance := st.balances.balance_of from_
  if amount ≠ 0 ∧ balance = 0 then (st, .error (.InsufficientFunds balance))
  else
    match tokSub balance amount with
    | none => (st, .error (.InsufficientFunds balance))
    | some new_balance =>
        let balances' :=
          if new_balance = 0 then st.balances.removeAcc from_
          else st.balances.set_balance from_ new_balance
        let app := st.ledger.burnRec (Account.new caller none) from_ amount now
        ({ st with balances := balances', ledger := app.1 }, .ok app.2)

/-- `mint_to_accountid` (is20_transactions.rs lines 266-275): checked-add the
amount into the claims bucket of the legacy identifier. -/
def mint_to_accountid (st : CanisterState) (to_ : AccountId) (amount : Nat) :
    CanisterState × Except TxError Unit :=
  let balance := lookupClaim st.claims to_
  match tokAdd balance amount with
  | none => (st, .error .AmountOverflow)
  | some new_balance =>
      ({ st with claims := (to_, new_balance) :: removeClaimKey to_ st.claims }, .ok ())

/-- `CanisterState::claim_amount`: the pending amount of a legacy identifier,
zero when absent. -/
def claim_amount (st : CanisterState) (account : AccountId) : Nat :=
  lookupClaim st.claims account

/-- `claim` (is20_transactions.rs lines 277-300): read the pending amount,
reject with `ClaimNotAllowed` unless the caller plus the supplied subaccount
(defaulted to all-zero when omitted) derives the claimed legacy identifier,
then mint the amount to the caller's live account and remove the claims
entry; the removal runs regardless of the mint's result. -/
def claim (st : CanisterState) (caller : Principal) (account : AccountId)
    (subaccount : Option Subaccount) (now : Nat) :
    CanisterState × Except TxError Nat :=
  let amount := claim_amount st account
  if account ≠ accountIdentifierNew caller (subaccount.getD defaultSubaccount) then
    (st, .error .ClaimNotAllowed)
  else
    let to_ := Account.new caller subaccount
    let res := mint st caller to_ amount now
    ({ res.1 with claims := removeClaimKey account res.1.claims }, res.2)

/-- The remapping of a failed batch leg's error (is20_transactions.rs lines
342-347): an `InsufficientFunds` error is rewritten to carry the sender's
original, pre-batch balance. -/
def remapBatchError (originalBalance : Nat) : TxError → TxError
  | .InsufficientFunds _ => .InsufficientFunds originalBalance
  | e => e

/-- The leg loop of `batch_transfer` (is20_transactions.rs lines 332-348):
apply `transfer_internal` for each leg sequentially into the shared staged
diff, stopping at the first error. -/
def batchLegs (from_ : Account) (fee : Nat) (fee_to : Account)
    (ratio : FeeRatio) : Balances → List BatchTransferArgs →
    Except TxError Balances
  | ub, [] => .ok ub
  | ub, t :: rest =>
      match transfer_internal ub from_ t.receiver t.amount fee fee_to ratio with
      | .error e => .error e
      | .ok ub' => batchLegs from_ fee fee_to ratio ub' rest

/-- The staging loop of `batch_transfer` (is20_transactions.rs lines
323-330): one shared diff holding the current balances of the sender, the
fee recipient, the auction account and every receiver. -/
def batchStage (balances : Balances) (from_ fee_to : Account)
    (transfers : List BatchTransferArgs) : Balances :=
  let base :=
    ((Balances.empty.set_balance from_ (balances.balance_of from_)).set_balance
        fee_to (balances.balance_of fee_to)).set_balance
        auction_account (balances.balance_of auction_account)
  transfers.foldl (fun acc t => acc.set_balance t.receiver (balances.balance_of t.receiver)) base

/-- `batch_transfer` (is20_transactions.rs lines 302-354): stage one shared
diff, run every leg through `transfer_internal` on it (rewriting
`InsufficientFunds` to the sender's original balance), and only when every
leg succeeded commit the diff once and append one Transfer record per leg. -/
def batch_transfer (st : CanisterState) (caller : Principal)
    (from_subaccount : Option Subaccount) (transfers : List BatchTransferArgs)
    (now : Nat) : CanisterState × Except TxError (List Nat) :=
  let from_ := Account.new caller from_subaccount
  let fee := st.fee
  let fee_to := Account.new st.fee_to none
  let staged := batchStage st.balances from_ fee_to transfers
  match batchLegs from_ fee fee_to st.fee_ratio staged transfers with
  | .error e => (st, .error (remapBatchError (st.balances.balance_of from_) e))
  | .ok updated_balances =>
      let balances' := st.balances.apply_change updated_balances
      let app := st.ledger.batchRec from_ fee now transfers
      ({ st with balances := balances', ledger := app.1 }, .ok app.2)

/-- The operations of the conservation claim, tagged with the ambient caller
and clock of each invocation. -/
inductive Op where
  | transfer (caller : Principal) (args : TransferArgs) (now : Nat)
  | transferIncludeFee (caller : Principal) (args : TransferArgs) (now : Nat)
  | batchTransfer (caller : Principal) (from_subaccount : Option Subaccount)
      (legs : List BatchTransferArgs) (now : Nat)
  | mintOp (caller : Principal) (to_ : Account) (amount : Nat) (now : Nat)
  | burnOp (caller : Principal) (from_ : Account) (amount : Nat) (now : Nat)

/-- A canister state together with the running totals of everything ever
minted and burned by successful operations. -/
structure TraceState where
  st : CanisterState
  minted : Nat
  burned : Nat

/-- One step of the conservation trace: run the operation and account a
successful mint or burn into the totals. -/
def stepOp (ts : TraceState) (op : Op) : TraceState :=
  match op with
  | .transfer caller args now =>
      { ts with st := (is20_transfer ts.st caller args now).1 }
  | .transferIncludeFee caller args now =>
      { ts with st := (transfer_include_fee ts.st caller args now).1 }
  | .batchTransfer caller sub legs now =>
      { ts with st := (batch_transfer ts.st caller sub legs now).1 }
  | .mintOp caller to_ amount now =>
      let res := mint ts.st caller to_ amount now
      { st := res.1, minted := ts.minted + (if res.2.isOk then amount else 0),
        burned := ts.burned }
  | .burnOp caller from_ amount now =>
      let res := burn ts.st caller from_ amount now
      { st := res.1, minted := ts.minted,
        burned := ts.burned + (if res.2.isOk then amount else 0) }

/-- Run a sequence of operations from a trace state. -/
def runOps (init : TraceState) (ops : List Op) : TraceState :=
  ops.foldl stepOp init

/-- The initial canister state of the conservation claim: empty store, empty
claims, empty ledger, and a given fee configuration. -/
def initState (fee : Nat) (fee_to : Principal) (ratio : FeeRatio) : CanisterState :=
  { balances := Balances.empty, claims := [], ledger := ⟨[]⟩,
    fee := fee, fee_to := fee_to, fee_ratio := ratio }

/-- The initial trace state: nothing minted, nothing burned. -/
def initTrace (fee : Nat) (fee_to : Principal) (ratio : FeeRatio) : TraceState :=
  { st := initState fee fee_to ratio, minted := 0, burned := 0 }

/-- A fee ratio assigning the whole fee to the fee recipient (used by
concrete witnesses). -/
def zeroRatio : FeeRatio :=
  ⟨fun _ => 0, fun f => Nat.zero_le f⟩

/-- The records visited by the duplicate scan, per the specification: the
reversed (newest-first) ledger, truncated at the first record older than
`TX_WINDOW`. -/
def visitedRecords (l : Ledger) (now : Nat) : List TxRecord :=
  l.records.reverse.takeWhile (fun tx => decide (now - tx.timestamp ≤ TX_WINDOW))

/-- The duplicate condition of one record, per the specification's words:
its timestamp equals `created_at_time`, its from, to, memo and amount equal
the submitted values, and its fee equals the submitted fee when one was
supplied (an omitted fee matching any stored fee). -/
def specDuplicate (from_ to_ : Account) (args : TransferArgs) (cat : Nat)
    (tx : TxRecord) : Prop :=
  tx.timestamp = cat ∧ tx.from_ = from_ ∧ tx.to_ = to_ ∧ tx.memo = args.memo ∧
    tx.amount = args.amount ∧ ∀ f, args.fee = some f → tx.fee = f

/-- Staging a list of accounts into a diff, each at its current balance in a
fixed source store: the common shape of the staging loops of
`transfer_internal` and `batch_transfer`. -/
def stageList (g : Account → Nat) (init : Balances) : List Account → Balances
  | [] => init
  | a :: rest => stageList g (init.set_balance a (g a)) rest

/-- Concrete account fixtures used by witnesses and counterexamples. -/
def accA : Account := Account.new 1 none

/-- Second concrete account fixture. -/
def accB : Account := Account.new 2 none

/-- Third concrete account fixture. -/
def accC : Account := Account.new 3 none

/-- A base state: empty store and ledger, zero fee, fee recipient principal 3. -/
def baseState : CanisterState := initState 0 3 zeroRatio

/-- The base state after minting 1000 tokens to `accA`. -/
def fundedState : CanisterState := (mint baseState 1 accA 1000 0).1

/-- Plain transfer arguments: 100 tokens to `accB`, no fee, no memo, no
deduplication timestamp. -/
def argsBasic : TransferArgs :=
  { from_subaccount := none, to_ := accB, amount := 100, fee := none,
    memo := none, created_at_time := none }

/-- The same arguments for the sender's full balance. -/
def argsDrain : TransferArgs := { argsBasic with amount := 1000 }

/-- A two-operation trace: mint 100 to `accA`, then transfer all 100 away. -/
def drainOps : List Op :=
  [Op.mintOp 1 accA 100 0, Op.transfer 1 argsBasic 5]

/-- The legacy identifier of principal 1 with the default subaccount. -/
def claimIdA : AccountId := accountIdentifierNew 1 defaultSubaccount

/-- A state whose caller balance is at the `Tokens128` maximum while a claim
of 1 token is pending. -/
def overflowClaimState : CanisterState :=
  { baseState with balances := ⟨[(accA, TOKENS_MOD - 1)]⟩, claims := [(claimIdA, 1)] }

/-- A state with a pending claim of 50 tokens and no balances. -/
def pendingClaimState : CanisterState :=
  { baseState with claims := [(claimIdA, 50)] }

/-- The funded state with a configured fee of 100 paid to principal 4. -/
def feeState : CanisterState := { fundedState with fee := 100, fee_to := 4 }

/-- Gross-amount arguments for the fee-inclusive transfer scenario. -/
def argsGross : TransferArgs :=
  { from_subaccount := none, to_ := accB, amount := 200, fee := none,
    memo := none, created_at_time := none }

/-- Arguments carrying a deduplication timestamp. -/
def dupArgs : TransferArgs :=
  { from_subaccount := none, to_ := accB, amount := 10, fee := none,
    memo := none, created_at_time := some 1000 }

/-- The funded state after executing `dupArgs` once at time 1000. -/
def dupState : CanisterState := (is20_transfer fundedState 1 dupArgs 1000).1

/-- Arguments requesting a fee different from the configured one. -/
def badFeeArgs : TransferArgs := { argsBasic with fee := some 5 }

/-- Arguments asking for more than the funded balance. -/
def insuffArgs : TransferArgs := { argsBasic with amount := 2000 }

/-- A batch whose second leg exceeds the funded balance. -/
def batchLegsW : List BatchTransferArgs := [⟨accB, 500⟩, ⟨accC, 600⟩]

/-- Gross-amount arguments equal to the sender's entire balance. -/
def argsGrossAll : TransferArgs :=
  { from_subaccount := none, to_ := accB, amount := 1000, fee := none,
    memo := none, created_at_time := none }

/-! Basic lemmas about the association-list operations. -/

theorem lookupBal_not_mem {l : List (Account × Nat)} {a : Account}
    (h : a ∉ l.map Prod.fst) : lookupBal l a = 0 := by
  induction l with
  | nil => rfl
  | cons p rest ih =>
      simp only [List.map_cons, List.mem_cons, not_or] at h
      rw [lookupBal, if_neg (Ne.symm h.1)]
      exact ih h.2

theorem removeKey_not_mem {l : List (Account × Nat)} {a : Account}
    (h : a ∉ l.map Prod.fst) : removeKey a l = l := by
  induction l with
  | nil => rfl
  | cons p rest ih =>
      simp only [List.map_cons, List.mem_cons, not_or] at h
      rw [removeKey, if_neg (Ne.symm h.1)]
      exact congrArg (p :: ·) (ih h.2)

theorem lookupBal_removeKey (l : List (Account × Nat)) (a a' : Account) :
    lookupBal (removeKey a l) a' = if a' = a then 0 else lookupBal l a' := by
  induction l with
  | nil => simp [removeKey, lookupBal]
  | cons p rest ih =>
      by_cases hp : p.1 = a
      · simp only [removeKey, if_pos hp, ih, lookupBal]
        by_cases ha : a' = a
        · simp [ha]
        · have : ¬ p.1 = a' := fun hh => ha (hh ▸ hp ▸ rfl)
          simp [ha, lookupBal, this]
      · simp only [removeKey, if_neg hp, lookupBal]
        by_cases hpa : p.1 = a'
        · have ha : ¬ a' = a := fun hh => hp (hpa.trans hh)
          simp [hpa, ha]
        · simp [hpa, ih]

theorem mem_removeKey_sub {l : List (Account × Nat)} {a : Account}
    {p : Account × Nat} (h : p ∈ removeKey a l) : p ∈ l := by
  induction l with
  | nil => simp [removeKey] at h
  | cons q rest ih =>
      by_cases hq : q.1 = a
      · rw [removeKey, if_pos hq] at h
        exact List.mem_cons_of_mem _ (ih h)
      · rw [removeKey, if_neg hq] at h
        rcases List.mem_cons.mp h with h | h
        · exact h ▸ List.mem_cons_self _ _
        · exact List.mem_cons_of_mem _ (ih h)

theorem mem_keys_removeKey {l : List (Account × Nat)} {a x : Account}
    (h : x ∈ (removeKey a l).map Prod.fst) : x ∈ l.map Prod.fst := by
  rcases List.mem_map.mp h with ⟨p, hp, rfl⟩
  exact List.mem_map_of_mem Prod.fst (mem_removeKey_sub hp)

theorem not_mem_keys_removeKey (l : List (Account × Nat)) (a : Account) :
    a ∉ (removeKey a l).map Prod.fst := by
  induction l with
  | nil => simp [removeKey]
  | cons q rest ih =>
      by_cases hq : q.1 = a
      · rw [removeKey, if_pos hq]
        exact ih
      · rw [removeKey, if_neg hq]
        simp only [List.map_cons, List.mem_cons, not_or]
        exact ⟨fun hh => hq hh.symm, ih⟩

theorem nodup_keys_removeKey {l : List (Account × Nat)} {a : Account}
    (h : (l.map Prod.fst).Nodup) : ((removeKey a l).map Prod.fst).Nodup := by
  induction l with
  | nil => simp [removeKey]
  | cons p rest ih =>
      simp only [List.map_cons, List.nodup_cons] at h
      by_cases hp : p.1 = a
      · rw [removeKey, if_pos hp]
        exact ih h.2
      · rw [removeKey, if_neg hp]
        simp only [List.map_cons, List.nodup_cons]
        exact ⟨fun hm => h.1 (mem_keys_removeKey hm), ih h.2⟩

theorem sum_removeKey {l : List (Account × Nat)} {a : Account}
    (h : (l.map Prod.fst).Nodup) :
    ((removeKey a l).map Prod.snd).sum + lookupBal l a = (l.map Prod.snd).sum := by
  induction l with
  | nil => simp [removeKey, lookupBal]
  | cons p rest ih =>
      simp only [List.map_cons, List.nodup_cons] at h
      by_cases hp : p.1 = a
      · have hnot : a ∉ rest.map Prod.fst := hp ▸ h.1
        rw [removeKey, if_pos hp, lookupBal, if_pos hp, removeKey_not_mem hnot]
        simp only [List.map_cons, List.sum_cons]
        omega
      · rw [removeKey, if_neg hp, lookupBal, if_neg hp]
        simp only [List.map_cons, List.sum_cons]
        have := ih h.2
        omega

theorem lookupBal_ne_of_mem {l : List (Account × Nat)} {a : Account}
    (hp : ∀ p ∈ l, p.2 ≠ 0) (h : a ∈ l.map Prod.fst) : lookupBal l a ≠ 0 := by
  induction l with
  | nil => simp at h
  | cons q rest ih =>
      by_cases hq : q.1 = a
      · rw [lookupBal, if_pos hq]
        exact hp q (List.mem_cons_self _ _)
      · rw [lookupBal, if_neg hq]
        simp only [List.map_cons, List.mem_cons] at h
        rcases h with h | h
        · exact absurd h.symm hq
        · exact ih (fun p hm => hp p (List.mem_cons_of_mem _ hm)) h

theorem lookupBal_entry {l : List (Account × Nat)}
    (h : (l.map Prod.fst).Nodup) : ∀ p ∈ l, lookupBal l p.1 = p.2 := by
  induction l with
  | nil => simp
  | cons q rest ih =>
      simp only [List.map_cons, List.nodup_cons] at h
      intro p hp
      rcases List.mem_cons.mp hp with hp | hp
      · simp [hp, lookupBal]
      · have hne : ¬ q.1 = p.1 := by
          intro hh
          exact h.1 (hh ▸ List.mem_map_of_mem Prod.fst hp)
        rw [lookupBal, if_neg hne]
        exact ih h.2 p hp

/-! Lemmas about the Balances Store operations. -/

theorem Balances.bal_remove (b : Balances) (a a' : Account) :
    (b.removeAcc a).balance_of a' = if a' = a then 0 else b.balance_of a' :=
  lookupBal_removeKey b.entries a a'

theorem Balances.bal_insert (b : Balances) (a a' : Account) (v : Nat) :
    (b.insertAcc a v).balance_of a' = if a' = a then v else b.balance_of a' := by
  unfold Balances.insertAcc Balances.balance_of
  by_cases ha : a' = a
  · simp [lookupBal, ha]
  · have hne : ¬ a = a' := fun hh => ha hh.symm
    rw [lookupBal, if_neg hne, lookupBal_removeKey]
    simp [ha]

theorem Balances.bal_set (b : Balances) (a a' : Account) (v : Nat) :
    (b.set_balance a v).balance_of a' = if a' = a then v else b.balance_of a' := by
  unfold Balances.set_balance
  by_cases hv : v = 0
  · rw [if_pos hv, Balances.bal_remove]
    by_cases ha : a' = a <;> simp [ha, hv]
  · rw [if_neg hv, Balances.bal_insert]

theorem Balances.wf_empty : Balances.empty.wf := by
  simp [Balances.wf, Balances.empty, Balances.keys]

theorem Balances.pos_empty : Balances.empty.pos := by
  simp [Balances.pos, Balances.empty]

theorem Balances.wf_remove {b : Balances} (h : b.wf) (a : Account) :
    (b.removeAcc a).wf :=
  nodup_keys_removeKey h

theorem Balances.wf_insert {b : Balances} (h : b.wf) (a : Account) (v : Nat) :
    (b.insertAcc a v).wf := by
  have h1 := not_mem_keys_removeKey b.entries a
  have h2 := nodup_keys_removeKey (a := a) h
  unfold Balances.insertAcc Balances.wf Balances.keys
  simp only [List.map_cons, List.nodup_cons]
  exact ⟨h1, h2⟩

theorem Balances.wf_set {b : Balances} (h : b.wf) (a : Account) (v : Nat) :
    (b.set_balance a v).wf := by
  unfold Balances.set_balance
  by_cases hv : v = 0
  · rw [if_pos hv]
    exact Balances.wf_remove h a
  · rw [if_neg hv]
    exact Balances.wf_insert h a v

theorem Balances.pos_remove {b : Balances} (h : b.pos) (a : Account) :
    (b.removeAcc a).pos :=
  fun p hp => h p (mem_removeKey_sub hp)

theorem Balances.pos_set {b : Balances} (h : b.pos) (a : Account) (v : Nat) :
    (b.set_balance a v).pos := by
  unfold Balances.set_balance
  by_cases hv : v = 0
  · rw [if_pos hv]
    exact Balances.pos_remove h a
  · rw [if_neg hv]
    intro p hp
    rcases List.mem_cons.mp hp with hp | hp
    · simp [hp, hv]
    · exact h p (mem_removeKey_sub hp)

theorem Balances.bal_not_mem {b : Balances} {a : Account} (h : a ∉ b.keys) :
    b.balance_of a = 0 :=
  lookupBal_not_mem h

theorem Balances.mem_keys_of_bal_ne {b : Balances} {a : Account}
    (h : b.balance_of a ≠ 0) : a ∈ b.keys := by
  by_contra hc
  exact h (Balances.bal_not_mem hc)

theorem Balances.bal_ne_of_mem_pos {b : Balances} (hp : b.pos) {a : Account}
    (h : a ∈ b.keys) : b.balance_of a ≠ 0 :=
  lookupBal_ne_of_mem hp h

theorem Balances.total_remove {b : Balances} (h : b.wf) (a : Account) :
    (b.removeAcc a).total + b.balance_of a = b.total :=
  sum_removeKey h

theorem Balances.total_insert {b : Balances} (h : b.wf) (a : Account) (v : Nat) :
    (b.insertAcc a v).total + b.balance_of a = b.total + v := by
  have h1 := sum_removeKey (l := b.entries) (a := a) h
  unfold Balances.insertAcc Balances.total Balances.balance_of
  simp only [List.map_cons, List.sum_cons]
  omega

theorem Balances.total_set {b : Balances} (h : b.wf) (a : Account) (v : Nat) :
    (b.set_balance a v).total + b.balance_of a = b.total + v := by
  unfold Balances.set_balance
  by_cases hv : v = 0
  · rw [if_pos hv]
    have := Balances.total_remove h a
    omega
  · rw [if_neg hv]
    exact Balances.total_insert h a v

theorem Balances.mem_keys_set {b : Balances} {a x : Account} {v : Nat}
    (h : x ∈ (b.set_balance a v).keys) : x = a ∨ x ∈ b.keys := by
  unfold Balances.set_balance at h
  by_cases hv : v = 0
  · rw [if_pos hv] at h
    exact Or.inr (mem_keys_removeKey h)
  · rw [if_neg hv] at h
    unfold Balances.insertAcc Balances.keys at h
    rcases List.mem_cons.mp h with h | h
    · exact Or.inl h
    · exact Or.inr (mem_keys_removeKey h)

theorem Balances.entry_val {b : Balances} (h : b.wf) :
    ∀ p ∈ b.entries, b.balance_of p.1 = p.2 :=
  lookupBal_entry h

/-! Lemmas about committing a diff (`apply_change` as a fold of `set`). -/

theorem applyList_wf : ∀ (l : List (Account × Nat)) (b : Balances), b.wf →
    (l.foldl (fun acc p => acc.set_balance p.1 p.2) b).wf := by
  intro l
  induction l with
  | nil => intro b hb; exact hb
  | cons p rest ih =>
      intro b hb
      exact ih _ (Balances.wf_set hb p.1 p.2)

theorem applyList_keys : ∀ (l : List (Account × Nat)) (b : Balances)
    (x : Account), x ∈ (l.foldl (fun acc p => acc.set_balance p.1 p.2) b).keys →
    x ∈ b.keys ∨ x ∈ l.map Prod.fst := by
  intro l
  induction l with
  | nil => intro b x hx; exact Or.inl hx
  | cons p rest ih =>
      intro b x hx
      rcases ih _ x hx with hx | hx
      · rcases Balances.mem_keys_set hx with hx | hx
        · exact Or.inr (by simp [hx])
        · exact Or.inl hx
      · exact Or.inr (List.mem_cons_of_mem _ hx)

theorem applyList_bal : ∀ (l : List (Account × Nat)) (b : Balances)
    (a : Account), (l.map Prod.fst).Nodup →
    (l.foldl (fun acc p => acc.set_balance p.1 p.2) b).balance_of a =
      if a ∈ l.map Prod.fst then lookupBal l a else b.balance_of a := by
  intro l
  induction l with
  | nil => intro b a _; simp
  | cons p rest ih =>
      intro b a hn
      simp only [List.map_cons, List.nodup_cons] at hn
      rw [List.foldl_cons, ih _ a hn.2]
      by_cases hr : a ∈ rest.map Prod.fst
      · have hpa : ¬ p.1 = a := fun hh => hn.1 (hh ▸ hr)
        have hmem : a ∈ List.map Prod.fst (p :: rest) := by
          simp only [List.map_cons, List.mem_cons]
          exact Or.inr hr
        rw [if_pos hr, if_pos hmem, lookupBal, if_neg hpa]
      · rw [if_neg hr, Balances.bal_set]
        by_cases hp : a = p.1
        · have hmem : a ∈ List.map Prod.fst (p :: rest) := by
            simp only [List.map_cons, List.mem_cons]
            exact Or.inl hp
          rw [if_pos hp, if_pos hmem, lookupBal, if_pos hp.symm]
        · have : a ∉ List.map Prod.fst (p :: rest) := by
            simp only [List.map_cons, List.mem_cons, not_or]
            exact ⟨hp, hr⟩
          rw [if_neg hp, if_neg this]

theorem applyList_total : ∀ (l : List (Account × Nat)) (b : Balances),
    b.wf → (l.map Prod.fst).Nodup →
    (l.foldl (fun acc p => acc.set_balance p.1 p.2) b).total +
        (l.map (fun p => b.balance_of p.1)).sum =
      b.total + (l.map Prod.snd).sum := by
  intro l
  induction l with
  | nil => intro b _ _; simp
  | cons p rest ih =>
      intro b hb hn
      simp only [List.map_cons, List.nodup_cons] at hn
      rw [List.foldl_cons]
      have h1 := ih (b.set_balance p.1 p.2) (Balances.wf_set hb p.1 p.2) hn.2
      have h2 := Balances.total_set hb p.1 p.2
      have h3 : ∀ q ∈ rest, (b.set_balance p.1 p.2).balance_of q.1 =
          b.balance_of q.1 := by
        intro q hq
        rw [Balances.bal_set]
        have : ¬ q.1 = p.1 := fun hh => hn.1 (hh ▸ List.mem_map_of_mem Prod.fst hq)
        rw [if_neg this]
      have h4 : (rest.map (fun q => (b.set_balance p.1 p.2).balance_of q.1)).sum =
          (rest.map (fun q => b.balance_of q.1)).sum := by
        exact congrArg List.sum (List.map_congr_left h3)
      simp only [List.map_cons, List.sum_cons]
      rw [h4] at h1
      omega

theorem Balances.apply_wf {b d : Balances} (hb : b.wf) :
    (b.apply_change d).wf :=
  applyList_wf d.entries b hb

theorem Balances.apply_keys {b d : Balances} {x : Account}
    (h : x ∈ (b.apply_change d).keys) : x ∈ b.keys ∨ x ∈ d.keys :=
  applyList_keys d.entries b x h

theorem Balances.apply_bal {b d : Balances} (hd : d.wf) (a : Account) :
    (b.apply_change d).balance_of a =
      if a ∈ d.keys then d.balance_of a else b.balance_of a :=
  applyList_bal d.entries b a hd

theorem Balances.apply_total {b d : Balances} (hb : b.wf) (hd : d.wf) :
    (b.apply_change d).total + (d.entries.map (fun p => b.balance_of p.1)).sum =
      b.total + d.total :=
  applyList_total d.entries b hb hd

/-! A sum over a sublist of keys is bounded by the sum over the staged keys. -/

theorem sum_map_le_of_subset (g : Account → Nat) :
    ∀ (k1 k2 : List Account), k1.Nodup → k2.Nodup →
    (∀ x ∈ k1, x ∈ k2 ∨ g x = 0) → (k1.map g).sum ≤ (k2.map g).sum := by
  intro k1
  induction k1 with
  | nil => intro k2 _ _ _; simp
  | cons a k1' ih =>
      intro k2 h1 h2 hsub
      simp only [List.nodup_cons] at h1
      simp only [List.map_cons, List.sum_cons]
      rcases hsub a (List.mem_cons_self _ _) with ha | ha
      · have hperm : (k2.map g).sum = g a + ((k2.erase a).map g).sum := by
          have hp := (List.perm_cons_erase ha).map g
          rw [hp.sum_eq, List.map_cons, List.sum_cons]
        have hrec := ih (k2.erase a) h1.2 (h2.erase a) (by
          intro x hx
          rcases hsub x (List.mem_cons_of_mem _ hx) with hx2 | hx2
          · have hne : x ≠ a := fun hh => h1.1 (hh ▸ hx)
            exact Or.inl ((List.mem_erase_of_ne hne).mpr hx2)
          · exact Or.inr hx2)
        omega
      · have hrec := ih k2 h1.2 h2 (fun x hx => hsub x (List.mem_cons_of_mem _ hx))
        omega

/-! Lemmas about the staging loops. -/

theorem stageList_bal (g : Account → Nat) :
    ∀ (l : List Account) (init : Balances) (x : Account),
    (stageList g init l).balance_of x =
      if x ∈ l then g x else init.balance_of x := by
  intro l
  induction l with
  | nil => intro init x; simp [stageList]
  | cons a rest ih =>
      intro init x
      rw [stageList, ih]
      by_cases hr : x ∈ rest
      · rw [if_pos hr, if_pos (List.mem_cons_of_mem _ hr)]
      · rw [if_neg hr, Balances.bal_set]
        by_cases ha : x = a
        · rw [if_pos ha, if_pos (by simp [ha]), ha]
        · have : x ∉ a :: rest := by
            simp only [List.mem_cons, not_or]
            exact ⟨ha, hr⟩
          rw [if_neg ha, if_neg this]

theorem stageList_wf (g : Account → Nat) :
    ∀ (l : List Account) (init : Balances), init.wf → (stageList g init l).wf := by
  intro l
  induction l with
  | nil => intro init h; exact h
  | cons a rest ih =>
      intro init h
      exact ih _ (Balances.wf_set h a (g a))

theorem stageList_pos (g : Account → Nat) :
    ∀ (l : List Account) (init : Balances), init.pos → (stageList g init l).pos := by
  intro l
  induction l with
  | nil => intro init h; exact h
  | cons a rest ih =>
      intro init h
      exact ih _ (Balances.pos_set h a (g a))

theorem stageList_keys (g : Account → Nat) :
    ∀ (l : List Account) (init : Balances) (x : Account),
    x ∈ (stageList g init l).keys → x ∈ l ∨ x ∈ init.keys := by
  intro l
  induction l with
  | nil => intro init x h; exact Or.inr h
  | cons a rest ih =>
      intro init x h
      rcases ih _ x h with h | h
      · exact Or.inl (List.mem_cons_of_mem _ h)
      · rcases Balances.mem_keys_set h with h | h
        · exact Or.inl (by simp [h])
        · exact Or.inr h

/-- The sum of a well-formed store all whose keys agree with `g` equals the
sum of `g` over its keys. -/
theorem total_eq_sum_keys {b : Balances} (g : Account → Nat) (hw : b.wf)
    (h : ∀ x ∈ b.keys, b.balance_of x = g x) :
    b.total = (b.keys.map g).sum := by
  unfold Balances.total Balances.keys
  rw [List.map_map]
  apply congrArg List.sum
  apply List.map_congr_left
  intro p hp
  have h1 : b.balance_of p.1 = p.2 := Balances.entry_val hw p hp
  have h2 : b.balance_of p.1 = g p.1 :=
    h p.1 (List.mem_map_of_mem Prod.fst hp)
  simp only [Function.comp]
  omega

/-! Characterisations of the checked arithmetic. -/

theorem tokAdd_some {a b c : Nat} (h : tokAdd a b = some c) :
    c = a + b ∧ a + b < TOKENS_MOD := by
  unfold tokAdd at h
  split at h
  · exact ⟨(Option.some.injEq _ _ ▸ h).symm, by assumption⟩
  · exact absurd h (by simp)

theorem tokAdd_none {a b : Nat} (h : tokAdd a b = none) :
    TOKENS_MOD ≤ a + b := by
  unfold tokAdd at h
  split at h
  · exact absurd h (by simp)
  · omega

theorem tokSub_some {a b c : Nat} (h : tokSub a b = some c) :
    c = a - b ∧ b ≤ a := by
  unfold tokSub at h
  split at h
  · exact ⟨(Option.some.injEq _ _ ▸ h).symm, by assumption⟩
  · exact absurd h (by simp)

theorem tokSub_none {a b : Nat} (h : tokSub a b = none) : a < b := by
  unfold tokSub at h
  split at h
  · exact absurd h (by simp)
  · omega

theorem tokAdd_eq_none {a b : Nat} (h : TOKENS_MOD ≤ a + b) :
    tokAdd a b = none := by
  unfold tokAdd
  rw [if_neg (by omega)]

theorem tokSub_eq_none {a b : Nat} (h : a < b) : tokSub a b = none := by
  unfold tokSub
  rw [if_neg (by omega)]

/-- The fee split is exact: owner share plus auction share equals the fee. -/
theorem fee_split_exact (r : FeeRatio) (fee : Nat) :
    (r.get_value fee).1 + (r.get_value fee).2 = fee := by
  have := r.share_le fee
  unfold FeeRatio.get_value
  omega

/-- The core lemma about a successful `transfer_internal`: it keeps the store
well-formed, never decreases the sum of all balances (it preserves it except
when the committed diff dropped a drained account), and touches no key
outside the four staged accounts. -/
theorem transfer_internal_ok {b : Balances} {f t : Account} {a fee : Nat}
    {ft : Account} {r : FeeRatio} {b' : Balances} (hw : b.wf)
    (h : transfer_internal b f t a fee ft r = .ok b') :
    b'.wf ∧ b.total ≤ b'.total ∧
      (∀ x ∈ b'.keys, x ∈ b.keys ∨ x = f ∨ x = t ∨ x = ft ∨ x = auction_account) := by
  unfold transfer_internal at h
  dsimp only at h
  split at h
  · exact absurd h (by simp)
  · split at h
    · exact absurd h (by simp)
    · split at h
      · exact absurd h (by simp)
      · split at h
        · exact absurd h (by simp)
        · split at h
          · exact absurd h (by simp)
          · rename_i o1 awf hadd o2 ufb hsub o3 utb hto o4 uftb hft o5 uab hau
            clear o1 o2 o3 o4 o5
            set u0 : Balances :=
              (((Balances.empty.set_balance f (b.balance_of f)).set_balance t
                  (b.balance_of t)).set_balance ft (b.balance_of ft)).set_balance
                auction_account (b.balance_of auction_account) with hu0
            set u1 : Balances := u0.set_balance f ufb with hu1
            set u2 : Balances := u1.set_balance t utb with hu2
            set u3 : Balances := u2.set_balance ft uftb with hu3
            set u4 : Balances := u3.set_balance auction_account uab with hu4
            have hb' : b.apply_change u4 = b' := by
              exact (Except.ok.injEq _ _ ▸ h)
            have hstage : u0 = stageList b.balance_of Balances.empty
                [f, t, ft, auction_account] := by
              rw [hu0]
              rfl
            have hwu0 : u0.wf := by
              rw [hstage]
              exact stageList_wf _ _ _ Balances.wf_empty
            have hbal0 : ∀ x, u0.balance_of x =
                if x ∈ [f, t, ft, auction_account] then b.balance_of x else 0 := by
              intro x
              rw [hstage, stageList_bal]
              rfl
            have hkeys0 : ∀ x ∈ u0.keys, x ∈ [f, t, ft, auction_account] := by
              intro x hx
              rw [hstage] at hx
              rcases stageList_keys _ _ _ x hx with hx | hx
              · exact hx
              · simp [Balances.empty, Balances.keys] at hx
            have hw1 : u1.wf := Balances.wf_set hwu0 _ _
            have hw2 : u2.wf := Balances.wf_set hw1 _ _
            have hw3 : u3.wf := Balances.wf_set hw2 _ _
            have hw4 : u4.wf := Balances.wf_set hw3 _ _
            have ht1 : u1.total + u0.balance_of f = u0.total + ufb :=
              Balances.total_set hwu0 _ _
            have ht2 : u2.total + u1.balance_of t = u1.total + utb :=
              Balances.total_set hw1 _ _
            have ht3 : u3.total + u2.balance_of ft = u2.total + uftb :=
              Balances.total_set hw2 _ _
            have ht4 : u4.total + u3.balance_of auction_account = u3.total + uab :=
              Balances.total_set hw3 _ _
            have hv1 := tokAdd_some hadd
            have hv2 := tokSub_some hsub
            have hv3 := tokAdd_some hto
            have hv4 := tokAdd_some hft
            have hv5 := tokAdd_some hau
            have hsplit := fee_split_exact r fee
            have htot : u4.total = u0.total := by omega
            have hkeys4 : ∀ x ∈ u4.keys, x ∈ [f, t, ft, auction_account] := by
              intro x hx
              rcases Balances.mem_keys_set hx with hx | hx
              · simp [hx]
              rcases Balances.mem_keys_set hx with hx | hx
              · simp [hx]
              rcases Balances.mem_keys_set hx with hx | hx
              · simp [hx]
              rcases Balances.mem_keys_set hx with hx | hx
              · simp [hx]
              · exact hkeys0 x hx
            have hmemg : ∀ x ∈ u4.keys, x ∈ u0.keys ∨ b.balance_of x = 0 := by
              intro x hx
              by_cases hz : b.balance_of x = 0
              · exact Or.inr hz
              · refine Or.inl (Balances.mem_keys_of_bal_ne ?_)
                rw [hbal0 x, if_pos (hkeys4 x hx)]
                exact hz
            have hsum0 : u0.total = (u0.keys.map b.balance_of).sum := by
              refine total_eq_sum_keys b.balance_of hwu0 ?_
              intro x hx
              rw [hbal0 x, if_pos (hkeys0 x hx)]
            have hle : (u4.keys.map b.balance_of).sum ≤
                (u0.keys.map b.balance_of).sum :=
              sum_map_le_of_subset b.balance_of u4.keys u0.keys hw4 hwu0 hmemg
            have happ := Balances.apply_total (d := u4) hw hw4
            have hbridge : (u4.entries.map (fun p => b.balance_of p.1)).sum =
                (u4.keys.map b.balance_of).sum := by
              unfold Balances.keys
              rw [List.map_map]
              rfl
            refine ⟨hb' ▸ Balances.apply_wf hw, ?_, ?_⟩
            · rw [← hb']
              omega
            · intro x hx
              rw [← hb'] at hx
              rcases Balances.apply_keys hx with hx | hx
              · exact Or.inl hx
              · have := hkeys4 x hx
                simp only [List.mem_cons, List.not_mem_nil, or_false] at this
                tauto

/-! Operation-level lemmas for the conservation invariant. -/

theorem exceptIsOk_ok {ε α : Type} (a : α) : (Except.ok a : Except ε α).isOk = true := rfl

theorem exceptIsOk_error {ε α : Type} (e : ε) : (Except.error e : Except ε α).isOk = false := rfl

theorem mint_wf_total {st : CanisterState} (hw : st.balances.wf)
    (c : Principal) (to_ : Account) (a n : Nat) :
    (mint st c to_ a n).1.balances.wf ∧
      (mint st c to_ a n).1.balances.total =
        st.balances.total + (if (mint st c to_ a n).2.isOk then a else 0) := by
  unfold mint
  dsimp only
  by_cases hmem : to_ ∈ st.balances.keys
  · rw [if_pos hmem]
    cases hadd : tokAdd (st.balances.balance_of to_) a with
    | none => exact ⟨hw, by simp [exceptIsOk_error]⟩
    | some nb =>
        have hv := tokAdd_some hadd
        have ht := Balances.total_insert hw to_ nb
        refine ⟨Balances.wf_insert hw to_ nb, ?_⟩
        simp only [exceptIsOk_ok, if_pos]
        omega
  · rw [if_neg hmem]
    have hz : st.balances.balance_of to_ = 0 := Balances.bal_not_mem hmem
    have hw0 : (st.balances.insertAcc to_ 0).wf := Balances.wf_insert hw to_ 0
    have ht0 : (st.balances.insertAcc to_ 0).total = st.balances.total := by
      have := Balances.total_insert hw to_ 0
      omega
    cases hadd : tokAdd (st.balances.balance_of to_) a with
    | none =>
        refine ⟨hw0, ?_⟩
        simp only [exceptIsOk_error]
        simp only [Bool.false_eq_true, if_false]
        omega
    | some nb =>
        have hv := tokAdd_some hadd
        have hb0 : (st.balances.insertAcc to_ 0).balance_of to_ = 0 := by
          rw [Balances.bal_insert, if_pos rfl]
        have ht := Balances.total_insert hw0 to_ nb
        refine ⟨Balances.wf_insert hw0 to_ nb, ?_⟩
        simp only [exceptIsOk_ok, if_pos]
        rw [hb0] at ht
        omega

theorem burn_wf_total {st : CanisterState} (hw : st.balances.wf)
    (c : Principal) (f : Account) (a n : Nat) :
    (burn st c f a n).1.balances.wf ∧
      (burn st c f a n).1.balances.total +
          (if (burn st c f a n).2.isOk then a else 0) =
        st.balances.total := by
  unfold burn
  dsimp only
  by_cases hguard : a ≠ 0 ∧ st.balances.balance_of f = 0
  · rw [if_pos hguard]
    exact ⟨hw, by simp [exceptIsOk_error]⟩
  · rw [if_neg hguard]
    cases hsub : tokSub (st.balances.balance_of f) a with
    | none => exact ⟨hw, by simp [exceptIsOk_error]⟩
    | some nb =>
        have hv := tokSub_some hsub
        dsimp only
        by_cases hnb : nb = 0
        · rw [if_pos hnb]
          have ht := Balances.total_remove hw f
          refine ⟨Balances.wf_remove hw f, ?_⟩
          simp only [exceptIsOk_ok, if_pos]
          omega
        · rw [if_neg hnb]
          have ht := Balances.total_set hw f nb
          refine ⟨Balances.wf_set hw f nb, ?_⟩
          simp only [exceptIsOk_ok, if_pos]
          omega

theorem is20_transfer_wf_total {st : CanisterState} (hw : st.balances.wf)
    (c : Principal) (args : TransferArgs) (n : Nat) :
    (is20_transfer st c args n).1.balances.wf ∧
      st.balances.total ≤ (is20_transfer st c args n).1.balances.total := by
  unfold is20_transfer
  dsimp only
  cases validate_and_get_tx_ts st c args n with
  | error e => exact ⟨hw, Nat.le_refl _⟩
  | ok ts =>
      dsimp only
      by_cases hbf : badFeeCheck args.fee st.fee
      · rw [if_pos hbf]
        exact ⟨hw, Nat.le_refl _⟩
      · rw [if_neg hbf]
        cases hti : transfer_internal st.balances (Account.new c args.from_subaccount)
            args.to_ args.amount st.fee (Account.new st.fee_to none) st.fee_ratio with
        | error e => exact ⟨hw, Nat.le_refl _⟩
        | ok b' =>
            have := transfer_internal_ok hw hti
            exact ⟨this.1, this.2.1⟩

theorem transfer_include_fee_wf_total {st : CanisterState} (hw : st.balances.wf)
    (c : Principal) (args : TransferArgs) (n : Nat) :
    (transfer_include_fee st c args n).1.balances.wf ∧
      st.balances.total ≤ (transfer_include_fee st c args n).1.balances.total := by
  unfold transfer_include_fee
  dsimp only
  cases tokSub args.amount st.fee with
  | none => exact ⟨hw, Nat.le_refl _⟩
  | some adj =>
      dsimp only
      by_cases hz : adj = 0
      · rw [if_pos hz]
        exact ⟨hw, Nat.le_refl _⟩
      · rw [if_neg hz]
        exact is20_transfer_wf_total hw c (args.with_amount adj) n

theorem batchLegs_ok {f : Account} {fee : Nat} {ft : Account} {r : FeeRatio} :
    ∀ (legs : List BatchTransferArgs) (ub ub' : Balances), ub.wf →
    batchLegs f fee ft r ub legs = .ok ub' →
    ub'.wf ∧ ub.total ≤ ub'.total ∧
      (∀ x ∈ ub'.keys, x ∈ ub.keys ∨ x = f ∨ x ∈ legs.map (·.receiver) ∨
        x = ft ∨ x = auction_account) := by
  intro legs
  induction legs with
  | nil =>
      intro ub ub' hwub h
      unfold batchLegs at h
      have : ub = ub' := Except.ok.injEq _ _ ▸ h
      subst this
      exact ⟨hwub, Nat.le_refl _, fun x hx => Or.inl hx⟩
  | cons t rest ih =>
      intro ub ub' hwub h
      unfold batchLegs at h
      cases hti : transfer_internal ub f t.receiver t.amount fee ft r with
      | error e => rw [hti] at h; exact absurd h (by simp)
      | ok ub1 =>
          rw [hti] at h
          dsimp only at h
          have h1 := transfer_internal_ok hwub hti
          have h2 := ih ub1 ub' h1.1 h
          refine ⟨h2.1, Nat.le_trans h1.2.1 h2.2.1, ?_⟩
          intro x hx
          rcases h2.2.2 x hx with hx1 | hx1 | hx1 | hx1 | hx1
          · rcases h1.2.2 x hx1 with hy | hy | hy | hy | hy
            · exact Or.inl hy
            · exact Or.inr (Or.inl hy)
            · exact Or.inr (Or.inr (Or.inl (by simp [hy])))
            · exact Or.inr (Or.inr (Or.inr (Or.inl hy)))
            · exact Or.inr (Or.inr (Or.inr (Or.inr hy)))
          · exact Or.inr (Or.inl hx1)
          · exact Or.inr (Or.inr (Or.inl (List.mem_cons_of_mem _ hx1)))
          · exact Or.inr (Or.inr (Or.inr (Or.inl hx1)))
          · exact Or.inr (Or.inr (Or.inr (Or.inr hx1)))

theorem foldl_stage_eq (g : Account → Nat) :
    ∀ (ts : List BatchTransferArgs) (init : Balances),
    ts.foldl (fun acc t => acc.set_balance t.receiver (g t.receiver)) init =
      stageList g init (ts.map (·.receiver)) := by
  intro ts
  induction ts with
  | nil => intro init; rfl
  | cons t rest ih =>
      intro init
      rw [List.foldl_cons, List.map_cons, stageList, ih]

theorem stageList_append (g : Account → Nat) :
    ∀ (l1 l2 : List Account) (init : Balances),
    stageList g init (l1 ++ l2) = stageList g (stageList g init l1) l2 := by
  intro l1
  induction l1 with
  | nil => intro l2 init; rfl
  | cons a rest ih =>
      intro l2 init
      rw [List.cons_append, stageList, stageList, ih]

theorem batchStage_eq (b : Balances) (f ft : Account)
    (transfers : List BatchTransferArgs) :
    batchStage b f ft transfers =
      stageList b.balance_of Balances.empty
        ([f, ft, auction_account] ++ transfers.map (·.receiver)) := by
  unfold batchStage
  rw [stageList_append, foldl_stage_eq]
  rfl

theorem batch_transfer_wf_total {st : CanisterState} (hw : st.balances.wf)
    (c : Principal) (sub : Option Subaccount) (transfers : List BatchTransferArgs)
    (n : Nat) :
    (batch_transfer st c sub transfers n).1.balances.wf ∧
      st.balances.total ≤ (batch_transfer st c sub transfers n).1.balances.total := by
  unfold batch_transfer
  dsimp only
  cases hlegs : batchLegs (Account.new c sub) st.fee (Account.new st.fee_to none)
      st.fee_ratio (batchStage st.balances (Account.new c sub)
        (Account.new st.fee_to none) transfers) transfers with
  | error e => exact ⟨hw, Nat.le_refl _⟩
  | ok updated =>
      dsimp only
      set f := Account.new c sub with hf
      set ft := Account.new st.fee_to none with hft
      set L : List Account := [f, ft, auction_account] ++ transfers.map (·.receiver)
        with hL
      set staged := batchStage st.balances f ft transfers with hstagedDef
      have hstage : staged = stageList st.balances.balance_of Balances.empty L :=
        batchStage_eq st.balances f ft transfers
      have hwst : staged.wf := by
        rw [hstage]
        exact stageList_wf _ _ _ Balances.wf_empty
      have hbal : ∀ x, staged.balance_of x =
          if x ∈ L then st.balances.balance_of x else 0 := by
        intro x
        rw [hstage, stageList_bal]
        rfl
      have hkeysS : ∀ x ∈ staged.keys, x ∈ L := by
        intro x hx
        rw [hstage] at hx
        rcases stageList_keys _ _ _ x hx with hx | hx
        · exact hx
        · simp [Balances.empty, Balances.keys] at hx
      have hlegs2 := batchLegs_ok transfers staged updated hwst hlegs
      have hmemg : ∀ x ∈ updated.keys, x ∈ staged.keys ∨
          st.balances.balance_of x = 0 := by
        intro x hx
        by_cases hz : st.balances.balance_of x = 0
        · exact Or.inr hz
        · refine Or.inl ?_
          have hxL : x ∈ L := by
            rcases hlegs2.2.2 x hx with hx1 | hx1 | hx1 | hx1 | hx1
            · exact hkeysS x hx1
            · simp [hL, hx1]
            · simp [hL, hx1]
            · simp [hL, hx1]
            · simp [hL, hx1]
          refine Balances.mem_keys_of_bal_ne ?_
          rw [hbal x, if_pos hxL]
          exact hz
      have hsum0 : staged.total = (staged.keys.map st.balances.balance_of).sum := by
        refine total_eq_sum_keys st.balances.balance_of hwst ?_
        intro x hx
        rw [hbal x, if_pos (hkeysS x hx)]
      have hle : (updated.keys.map st.balances.balance_of).sum ≤
          (staged.keys.map st.balances.balance_of).sum :=
        sum_map_le_of_subset st.balances.balance_of updated.keys staged.keys
          hlegs2.1 hwst hmemg
      have happ := Balances.apply_total (d := updated) hw hlegs2.1
      have hbridge : (updated.entries.map (fun p => st.balances.balance_of p.1)).sum =
          (updated.keys.map st.balances.balance_of).sum := by
        unfold Balances.keys
        rw [List.map_map]
        rfl
      have hlegtot := hlegs2.2.1
      refine ⟨Balances.apply_wf hw, ?_⟩
      omega

/-! The conservation trace invariant. -/

theorem stepOp_inv {ts : TraceState} (hw : ts.st.balances.wf)
    (hinv : ts.minted ≤ ts.st.balances.total + ts.burned) (op : Op) :
    (stepOp ts op).st.balances.wf ∧
      (stepOp ts op).minted ≤ (stepOp ts op).st.balances.total + (stepOp ts op).burned := by
  cases op with
  | transfer c args n =>
      have := is20_transfer_wf_total hw c args n
      unfold stepOp
      exact ⟨this.1, by dsimp only; omega⟩
  | transferIncludeFee c args n =>
      have := transfer_include_fee_wf_total hw c args n
      unfold stepOp
      exact ⟨this.1, by dsimp only; omega⟩
  | batchTransfer c sub legs n =>
      have := batch_transfer_wf_total hw c sub legs n
      unfold stepOp
      exact ⟨this.1, by dsimp only; omega⟩
  | mintOp c to_ a n =>
      have := mint_wf_total hw c to_ a n
      unfold stepOp
      refine ⟨this.1, ?_⟩
      dsimp only
      by_cases hok : (mint ts.st c to_ a n).2.isOk
      · rw [if_pos hok] at *
        omega
      · rw [if_neg hok] at *
        omega
  | burnOp c f a n =>
      have := burn_wf_total hw c f a n
      unfold stepOp
      refine ⟨this.1, ?_⟩
      dsimp only
      by_cases hok : (burn ts.st c f a n).2.isOk
      · rw [if_pos hok] at *
        omega
      · rw [if_neg hok] at *
        omega

theorem runOps_inv : ∀ (ops : List Op) (ts : TraceState), ts.st.balances.wf →
    ts.minted ≤ ts.st.balances.total + ts.burned →
    (runOps ts ops).st.balances.wf ∧
      (runOps ts ops).minted ≤ (runOps ts ops).st.balances.total + (runOps ts ops).burned := by
  intro ops
  induction ops with
  | nil => intro ts hw hinv; exact ⟨hw, hinv⟩
  | cons op rest ih =>
      intro ts hw hinv
      have := stepOp_inv hw hinv op
      exact ih (stepOp ts op) this.1 this.2

/-! Control-flow case lemmas for the transfer entry points. -/

theorem is20_transfer_cases (st : CanisterState) (c : Principal)
    (args : TransferArgs) (now : Nat) :
    (is20_transfer st c args now).1 = st ∨ (is20_transfer st c args now).2.isOk = true := by
  unfold is20_transfer
  dsimp only
  cases validate_and_get_tx_ts st c args now with
  | error e => exact Or.inl rfl
  | ok ts =>
      dsimp only
      by_cases hbf : badFeeCheck args.fee st.fee
      · rw [if_pos hbf]
        exact Or.inl rfl
      · rw [if_neg hbf]
        cases transfer_internal st.balances (Account.new c args.from_subaccount)
            args.to_ args.amount st.fee (Account.new st.fee_to none) st.fee_ratio with
        | error e => exact Or.inl rfl
        | ok b' => exact Or.inr rfl

theorem mintRec_len (l : Ledger) (f t : Account) (a n : Nat) :
    (l.mintRec f t a n).1.records.length = l.records.length + 1 := by
  unfold Ledger.mintRec
  simp

theorem mint_ledger_len {st : CanisterState} {c : Principal} {t : Account}
    {a n : Nat} (h : (mint st c t a n).2.isOk = true) :
    (mint st c t a n).1.ledger.records.length = st.ledger.records.length + 1 := by
  unfold mint at h ⊢
  dsimp only at h ⊢
  cases hadd : tokAdd (st.balances.balance_of t) a with
  | none =>
      rw [hadd] at h
      exact absurd h (by simp [exceptIsOk_error])
  | some nb =>
      dsimp only
      exact mintRec_len st.ledger (Account.new c none) t a n

theorem batchRec_len (f : Account) (fee now : Nat) :
    ∀ (transfers : List BatchTransferArgs) (l : Ledger),
    (Ledger.batchRec l f fee now transfers).2.length = transfers.length ∧
      (Ledger.batchRec l f fee now transfers).1.records.length =
        l.records.length + transfers.length := by
  intro transfers
  induction transfers with
  | nil => intro l; exact ⟨rfl, rfl⟩
  | cons t rest ih =>
      intro l
      unfold Ledger.batchRec
      dsimp only
      have h1 := ih (l.transferRec f t.receiver t.amount fee none now).1
      have h2 : (l.transferRec f t.receiver t.amount fee none now).1.records.length =
          l.records.length + 1 := by
        unfold Ledger.transferRec
        simp
      refine ⟨by simp [h1.1], ?_⟩
      rw [h1.2, h2, List.length_cons]
      omega

theorem batch_transfer_cases (st : CanisterState) (c : Principal)
    (sub : Option Subaccount) (transfers : List BatchTransferArgs) (now : Nat) :
    ((batch_transfer st c sub transfers now).1 = st ∧
      (∃ e, (batch_transfer st c sub transfers now).2 = .error e) ∧
      ∀ b, (batch_transfer st c sub transfers now).2 = .error (.InsufficientFunds b) →
        b = st.balances.balance_of (Account.new c sub)) ∨
    (∃ ids, (batch_transfer st c sub transfers now).2 = .ok ids ∧
      ids.length = transfers.length ∧
      (batch_transfer st c sub transfers now).1.ledger.records.length =
        st.ledger.records.length + transfers.length) := by
  unfold batch_transfer
  dsimp only
  cases batchLegs (Account.new c sub) st.fee (Account.new st.fee_to none)
      st.fee_ratio (batchStage st.balances (Account.new c sub)
        (Account.new st.fee_to none) transfers) transfers with
  | error e =>
      left
      refine ⟨rfl, ⟨_, rfl⟩, ?_⟩
      intro b hb
      dsimp only at hb
      cases e <;> simp [remapBatchError] at hb <;> omega
  | ok updated =>
      right
      have hlen := batchRec_len (Account.new c sub) st.fee now transfers st.ledger
      exact ⟨_, rfl, hlen.1, hlen.2⟩

/-! Claim C2. -/

/-- C2: every invocation of `is20_transfer` that returns an error (BadFee,
InsufficientFunds, AmountOverflow, TooOld, CreatedInFuture or Duplicate)
leaves the canister state — in particular the Balances Store and the
Ledger — exactly as it was; the durable writes happen only on the success
path, after all validation and arithmetic, and that path cannot error. -/
theorem transfer_error_leaves_state (st : CanisterState) (c : Principal)
    (args : TransferArgs) (now : Nat) (e : TxError)
    (h : (is20_transfer st c args now).2 = .error e) :
    (is20_transfer st c args now).1 = st := by
  rcases is20_transfer_cases st c args now with h1 | h1
  · exact h1
  · rw [h] at h1
    exact absurd h1 (by simp [exceptIsOk_error])

/-- Witness for C2: a transfer rejected with `BadFee` leaves the concrete
base state unchanged. -/
theorem transfer_error_leaves_state_witness :
    (is20_transfer baseState 1 badFeeArgs 0).1 = baseState :=
  transfer_error_leaves_state baseState 1 badFeeArgs 0 (.BadFee 0) (by decide)

/-! Claim C3. -/

/-- C3: if any leg of a batch transfer fails the whole call returns an error,
the state (balances and ledger) is exactly the pre-call state, and an
`InsufficientFunds` error reports the sender's original pre-batch balance;
when every leg succeeds, one ledger record is appended per leg and one index
per leg is returned. -/
theorem batch_transfer_atomicity (st : CanisterState) (c : Principal)
    (sub : Option Subaccount) (transfers : List BatchTransferArgs) (now : Nat) :
    (∀ e, (batch_transfer st c sub transfers now).2 = .error e →
      (batch_transfer st c sub transfers now).1 = st ∧
        ∀ b, e = .InsufficientFunds b →
          b = st.balances.balance_of (Account.new c sub)) ∧
    (∀ ids, (batch_transfer st c sub transfers now).2 = .ok ids →
      ids.length = transfers.length ∧
      (batch_transfer st c sub transfers now).1.ledger.records.length =
        st.ledger.records.length + transfers.length) := by
  rcases batch_transfer_cases st c sub transfers now with ⟨h1, hex, h3⟩ | ⟨ids, hok, hl1, hl2⟩
  · constructor
    · intro e he
      exact ⟨h1, fun b hb => h3 b (hb ▸ he)⟩
    · intro ids hok
      rcases hex with ⟨e, he⟩
      rw [hok] at he
      exact absurd he (by simp)
  · constructor
    · intro e he
      rw [hok] at he
      exact absurd he (by simp)
    · intro ids2 hok2
      rw [hok] at hok2
      have : ids = ids2 := by
        simpa using hok2
      exact this ▸ ⟨hl1, hl2⟩

/-- Witness for C3: the concrete two-leg batch whose second leg exceeds the
funded balance fails, leaves the state unchanged, and reports the sender's
original balance of 1000. -/
theorem batch_transfer_atomicity_witness :
    (batch_transfer fundedState 1 none batchLegsW 0).1 = fundedState ∧
      (1000 : Nat) = fundedState.balances.balance_of (Account.new 1 none) := by
  have h := (batch_transfer_atomicity fundedState 1 none batchLegsW 0).1
    (.InsufficientFunds 1000) (by decide)
  exact ⟨h.1, h.2 1000 rfl⟩

/-! Claim C4. -/

/-- C4 (code bug): when the caller's live balance is at the `Tokens128`
maximum and a claim of 1 token is pending, `claim` returns `AmountOverflow`
(the mint fails) and yet removes the claim entry — the pending amount is
permanently lost, so removal and minting are not one atomic unit. -/
theorem claim_overflow_removes_entry :
    (claim overflowClaimState 1 claimIdA none 0).2 = .error .AmountOverflow ∧
      claim_amount overflowClaimState claimIdA = 1 ∧
      (claim overflowClaimState 1 claimIdA none 0).1.claims = [] ∧
      (claim overflowClaimState 1 claimIdA none 0).1.balances =
        overflowClaimState.balances := by
  decide

/-! Claim C5. -/

/-- Counterexample for C5: after a successful claim removed the entry, a
second identical claim call does not return an error: it succeeds (as a
zero-amount mint) and changes no balance. -/
theorem second_claim_succeeds :
    (claim pendingClaimState 1 claimIdA none 0).2 = .ok 0 ∧
      (claim pendingClaimState 1 claimIdA none 0).1.claims = [] ∧
      (claim (claim pendingClaimState 1 claimIdA none 0).1 1 claimIdA none 1).2 = .ok 1 ∧
      (claim (claim pendingClaimState 1 claimIdA none 0).1 1 claimIdA none 1).1.balances =
        (claim pendingClaimState 1 claimIdA none 0).1.balances := by
  decide

/-- C5 (amended): a second claim call on the same legacy identifier finds a
pending amount of zero; it succeeds as a zero-amount mint — returning an
index, leaving the total of all balances unchanged, and appending one Mint
record — instead of returning an error. -/
theorem claim_absent_entry_zero_mint (st : CanisterState) (c : Principal)
    (sub : Option Subaccount) (account : AccountId) (now : Nat)
    (hw : st.balances.wf)
    (hbound : st.balances.balance_of (Account.new c sub) < TOKENS_MOD)
    (habs : claim_amount st account = 0)
    (hmatch : account = accountIdentifierNew c (sub.getD defaultSubaccount)) :
    (claim st c account sub now).2.isOk = true ∧
      (claim st c account sub now).1.balances.total = st.balances.total ∧
      (claim st c account sub now).1.ledger.records.length =
        st.ledger.records.length + 1 := by
  unfold claim
  rw [if_neg (by simp [hmatch])]
  dsimp only
  rw [habs]
  have hok : (mint st c (Account.new c sub) 0 now).2.isOk = true := by
    unfold mint
    dsimp only
    have hadd : tokAdd (st.balances.balance_of (Account.new c sub)) 0 =
        some (st.balances.balance_of (Account.new c sub)) := by
      unfold tokAdd
      rw [if_pos (by omega), Nat.add_zero]
    rw [hadd]
    rfl
  have hm := mint_wf_total hw c (Account.new c sub) 0 now
  have hl := mint_ledger_len hok
  refine ⟨hok, ?_, hl⟩
  have := hm.2
  rw [hok] at this
  simpa using this

/-- Witness for C5's amended statement: in the concrete post-first-claim
state the second claim succeeds with the balances total unchanged. -/
theorem claim_absent_entry_zero_mint_witness :
    (claim (claim pendingClaimState 1 claimIdA none 0).1 1 claimIdA none 1).2.isOk = true ∧
      (claim (claim pendingClaimState 1 claimIdA none 0).1 1 claimIdA none 1).1.balances.total =
        (claim pendingClaimState 1 claimIdA none 0).1.balances.total ∧
      (claim (claim pendingClaimState 1 claimIdA none 0).1 1 claimIdA none 1).1.ledger.records.length =
        (claim pendingClaimState 1 claimIdA none 0).1.ledger.records.length + 1 :=
  claim_absent_entry_zero_mint (claim pendingClaimState 1 claimIdA none 0).1 1 none
    claimIdA 1 (by unfold Balances.wf Balances.keys; decide) (by decide) (by decide) (by decide)

/-! Claim C9. -/

/-- C9 (code bug): minting a zero amount to an account with no stored entry
succeeds and persists an entry with value zero — `get_mut_or_insert_default`
materialises the zero entry and the success path stores it — violating the
no-zero-entry invariant. -/
theorem mint_zero_persists_zero_entry :
    (mint baseState 1 accC 0 0).2 = .ok 0 ∧
      (mint baseState 1 accC 0 0).1.balances.entries = [(accC, 0)] := by
  decide

/-! Claim C10. -/

theorem mint_not_claimNotAllowed (st : CanisterState) (c : Principal)
    (t : Account) (a n : Nat) :
    (mint st c t a n).2 ≠ .error .ClaimNotAllowed := by
  unfold mint
  dsimp only
  cases tokAdd (st.balances.balance_of t) a <;> simp

/-- C10: an omitted subaccount argument of `claim` is canonicalised to the
all-zero 32-byte subaccount for the ownership check, so for any caller and
state, `claim` with `none` fails with `ClaimNotAllowed` exactly when `claim`
with the explicit all-zero subaccount does. -/
theorem claim_subaccount_canonicalization (st : CanisterState) (c : Principal)
    (account : AccountId) (now : Nat) :
    ((claim st c account none now).2 = .error .ClaimNotAllowed ↔
      (claim st c account (some defaultSubaccount) now).2 = .error .ClaimNotAllowed) := by
  unfold claim
  dsimp only [Option.getD]
  by_cases hg : account ≠ accountIdentifierNew c defaultSubaccount
  · rw [if_pos hg, if_pos hg]
  · rw [if_neg hg, if_neg hg]
    dsimp only
    constructor
    · intro hcon
      exact absurd hcon (mint_not_claimNotAllowed st c (Account.new c none) _ now)
    · intro hcon
      exact absurd hcon
        (mint_not_claimNotAllowed st c (Account.new c (some defaultSubaccount)) _ now)

/-! Claim C1. -/

/-- Counterexample for C1: after minting 100 tokens and transferring the
sender's full balance of 100 (zero fee), the committed diff dropped the
drained sender (its staged zero balance was removed from the diff by the
zero-removing `set`), the stale balance of 100 remains stored, and the sum
of all entries is 200 while total minted minus total burned is 100. -/
theorem conservation_violated_at_full_drain :
    (runOps (initTrace 0 3 zeroRatio) drainOps).st.balances.total = 200 ∧
      (runOps (initTrace 0 3 zeroRatio) drainOps).minted = 100 ∧
      (runOps (initTrace 0 3 zeroRatio) drainOps).burned = 0 ∧
      ¬ ((runOps (initTrace 0 3 zeroRatio) drainOps).st.balances.total =
        (runOps (initTrace 0 3 zeroRatio) drainOps).minted -
          (runOps (initTrace 0 3 zeroRatio) drainOps).burned) := by
  decide

/-- C1 (amended): for every sequence of transfer, transfer_include_fee,
batch_transfer, mint and burn operations from the initial state, the sum of
all Balances Store entries is at least total minted minus total burned
(equality — the original claim — fails exactly when a transfer's committed
diff dropped a previously funded account drained to zero, whose stale
balance then inflates the sum). -/
theorem conservation_lower_bound (fee : Nat) (fee_to : Principal)
    (ratio : FeeRatio) (ops : List Op) :
    (runOps (initTrace fee fee_to ratio) ops).minted ≤
      (runOps (initTrace fee fee_to ratio) ops).st.balances.total +
        (runOps (initTrace fee fee_to ratio) ops).burned := by
  have h := runOps_inv ops (initTrace fee fee_to ratio) Balances.wf_empty
    (Nat.zero_le _)
  exact h.2

/-! Claim C6. -/

theorem transfer_internal_insufficient (b : Balances) (f t : Account)
    (a fee : Nat) (ft : Account) (r : FeeRatio)
    (h : TOKENS_MOD ≤ a + fee ∨ b.balance_of f < a + fee) :
    transfer_internal b f t a fee ft r =
      .error (.InsufficientFunds (b.balance_of f)) := by
  unfold transfer_internal
  dsimp only
  have hbal : ((((Balances.empty.set_balance f (b.balance_of f)).set_balance t
      (b.balance_of t)).set_balance ft (b.balance_of ft)).set_balance
      auction_account (b.balance_of auction_account)).balance_of f =
      b.balance_of f := by
    rw [show (((Balances.empty.set_balance f (b.balance_of f)).set_balance t
        (b.balance_of t)).set_balance ft (b.balance_of ft)).set_balance
        auction_account (b.balance_of auction_account) =
      stageList b.balance_of Balances.empty [f, t, ft, auction_account] from rfl]
    rw [stageList_bal]
    simp
  by_cases hov : a + fee < TOKENS_MOD
  · rcases h with h | h
    · omega
    · have hadd : tokAdd a fee = some (a + fee) := by
        unfold tokAdd
        rw [if_pos hov]
      rw [hadd]
      dsimp only
      rw [hbal, tokSub_eq_none h]
  · have hadd : tokAdd a fee = none := tokAdd_eq_none (by omega)
    rw [hadd]
    dsimp only
    rw [hbal]

/-- C6: for a transfer that passed the deduplication and fee checks, both an
overflowing `amount + fee` and a staged sender balance below `amount + fee`
fail with `InsufficientFunds` carrying the sender's original balance (never
`AmountOverflow`), and the state is unchanged. -/
theorem insufficient_funds_shadows_overflow (st : CanisterState) (c : Principal)
    (args : TransferArgs) (now ts : Nat)
    (hval : validate_and_get_tx_ts st c args now = .ok ts)
    (hfee : badFeeCheck args.fee st.fee = false)
    (hcase : TOKENS_MOD ≤ args.amount + st.fee ∨
      st.balances.balance_of (Account.new c args.from_subaccount) <
        args.amount + st.fee) :
    is20_transfer st c args now =
      (st, .error (.InsufficientFunds
        (st.balances.balance_of (Account.new c args.from_subaccount)))) := by
  unfold is20_transfer
  dsimp only
  rw [hval]
  dsimp only
  rw [hfee]
  simp only [Bool.false_eq_true, if_false]
  rw [transfer_internal_insufficient st.balances (Account.new c args.from_subaccount)
    args.to_ args.amount st.fee (Account.new st.fee_to none) st.fee_ratio hcase]

/-- Witness for C6: the concrete over-balance transfer fails with
`InsufficientFunds 1000` and the state is unchanged. -/
theorem insufficient_funds_shadows_overflow_witness :
    is20_transfer fundedState 1 insuffArgs 0 =
      (fundedState, .error (.InsufficientFunds
        (fundedState.balances.balance_of (Account.new 1 none)))) :=
  insufficient_funds_shadows_overflow fundedState 1 insuffArgs 0 0 (by decide)
    (by decide) (Or.inr (by decide))

/-! Claim C7. -/

theorem scan_eq_find (now : Nat) (f t : Account) (args : TransferArgs)
    (cat : Nat) : ∀ l : List TxRecord,
    scanDuplicate now f t args cat l =
      ((l.takeWhile (fun tx => decide (now - tx.timestamp ≤ TX_WINDOW))).find?
        (txMatches f t args cat)).map TxRecord.index := by
  intro l
  induction l with
  | nil => rfl
  | cons tx rest ih =>
      unfold scanDuplicate
      rw [List.takeWhile_cons]
      by_cases hold : now - tx.timestamp > TX_WINDOW
      · have hdec : ¬ (decide (now - tx.timestamp ≤ TX_WINDOW) = true) := by
          simp only [decide_eq_true_eq]
          omega
        rw [if_pos hold, if_neg hdec]
        rfl
      · have hdec : decide (now - tx.timestamp ≤ TX_WINDOW) = true := by
          simp only [decide_eq_true_eq]
          omega
        rw [if_neg hold, if_pos hdec]
        by_cases hm : txMatches f t args cat tx = true
        · rw [if_pos hm, List.find?_cons_of_pos _ hm]
          rfl
        · rw [if_neg hm, List.find?_cons_of_neg _ (by simpa using hm), ih]

theorem txMatches_iff (f t : Account) (args : TransferArgs) (cat : Nat)
    (tx : TxRecord) :
    txMatches f t args cat tx = true ↔ specDuplicate f t args cat tx := by
  unfold txMatches specDuplicate
  simp only [Bool.and_eq_true, beq_iff_eq]
  cases hfee : args.fee with
  | none => simp [Option.getD]; tauto
  | some fv => simp [Option.getD]; tauto

/-- C7: for a transfer submitted with a `created_at_time` inside the
acceptance window, the validator rejects with `Duplicate` exactly when the
newest-to-oldest ledger scan, stopped at the first record older than
`TX_WINDOW`, visits a record matching the submitted timestamp, from, to,
memo and amount, with the submitted fee matching when supplied (an omitted
fee matching any stored fee); the reported `duplicate_of` is a matching
visited record's index. -/
theorem dedup_scan_characterization (st : CanisterState) (c : Principal)
    (args : TransferArgs) (now cat : Nat)
    (hcat : args.created_at_time = some cat)
    (h1 : now - cat ≤ TX_WINDOW)
    (h2 : cat - now ≤ PERMITTED_DRIFT) :
    ((∃ i, validate_and_get_tx_ts st c args now = .error (.Duplicate i)) ↔
      ∃ tx ∈ visitedRecords st.ledger now,
        specDuplicate (Account.new c args.from_subaccount) args.to_ args cat tx) ∧
    (∀ i, validate_and_get_tx_ts st c args now = .error (.Duplicate i) →
      ∃ tx ∈ visitedRecords st.ledger now,
        specDuplicate (Account.new c args.from_subaccount) args.to_ args cat tx ∧
          tx.index = i) := by
  unfold validate_and_get_tx_ts
  rw [hcat]
  dsimp only
  rw [if_neg (by omega), if_neg (by omega)]
  rw [scan_eq_find]
  unfold visitedRecords
  cases hfind : (st.ledger.records.reverse.takeWhile
      (fun tx => decide (now - tx.timestamp ≤ TX_WINDOW))).find?
      (txMatches (Account.new c args.from_subaccount) args.to_ args cat) with
  | none =>
      have hnone := List.find?_eq_none.mp hfind
      constructor
      · constructor
        · rintro ⟨i, hi⟩
          simp at hi
        · rintro ⟨tx, htx, hspec⟩
          exact absurd ((txMatches_iff _ _ _ _ tx).mpr hspec) (hnone tx htx)
      · intro i hi
        simp at hi
  | some tx =>
      have hmem := List.mem_of_find?_eq_some hfind
      have hmatches := List.find?_some hfind
      constructor
      · constructor
        · intro _
          exact ⟨tx, hmem, (txMatches_iff _ _ _ _ tx).mp hmatches⟩
        · intro _
          exact ⟨tx.index, rfl⟩
      · intro i hi
        simp at hi
        exact ⟨tx, hmem, (txMatches_iff _ _ _ _ tx).mp hmatches, by omega⟩

/-- Witness for C7: in the concrete state holding the executed transfer, the
resubmitted identical arguments are rejected as a duplicate, and the theorem
converts that rejection into a matching visited record. -/
theorem dedup_scan_characterization_witness :
    ∃ tx ∈ visitedRecords dupState.ledger 1000,
      specDuplicate (Account.new 1 dupArgs.from_subaccount) dupArgs.to_
        dupArgs 1000 tx :=
  (dedup_scan_characterization dupState 1 dupArgs 1000 1000 rfl (by decide)
    (by decide)).1.mp ⟨1, by decide⟩

/-! Claim C8. -/

theorem transfer_internal_balances {b : Balances} {f t : Account} {a fee : Nat}
    {ft : Account} {r : FeeRatio} {b' : Balances}
    (hft : f ≠ t) (hf3 : f ≠ ft) (hf4 : f ≠ auction_account)
    (ht3 : t ≠ ft) (ht4 : t ≠ auction_account)
    (hne : b.balance_of f ≠ a + fee)
    (h : transfer_internal b f t a fee ft r = .ok b') :
    b'.balance_of f + (a + fee) = b.balance_of f ∧
      b'.balance_of t = b.balance_of t + a := by
  unfold transfer_internal at h
  dsimp only at h
  split at h
  · exact absurd h (by simp)
  · split at h
    · exact absurd h (by simp)
    · split at h
      · exact absurd h (by simp)
      · split at h
        · exact absurd h (by simp)
        · split at h
          · exact absurd h (by simp)
          · rename_i o1 awf hadd o2 ufb hsub o3 utb hto o4 uftb hfee2 o5 uab hau
            clear o1 o2 o3 o4 o5
            set u0 : Balances :=
              (((Balances.empty.set_balance f (b.balance_of f)).set_balance t
                  (b.balance_of t)).set_balance ft (b.balance_of ft)).set_balance
                auction_account (b.balance_of auction_account) with hu0
            set u1 : Balances := u0.set_balance f ufb with hu1
            set u2 : Balances := u1.set_balance t utb with hu2
            set u3 : Balances := u2.set_balance ft uftb with hu3
            set u4 : Balances := u3.set_balance auction_account uab with hu4
            have hb' : b.apply_change u4 = b' := by
              exact (Except.ok.injEq _ _ ▸ h)
            have hstage : u0 = stageList b.balance_of Balances.empty
                [f, t, ft, auction_account] := by
              rw [hu0]
              rfl
            have hwu0 : u0.wf := by
              rw [hstage]
              exact stageList_wf _ _ _ Balances.wf_empty
            have hw1 : u1.wf := Balances.wf_set hwu0 _ _
            have hw2 : u2.wf := Balances.wf_set hw1 _ _
            have hw3 : u3.wf := Balances.wf_set hw2 _ _
            have hw4 : u4.wf := Balances.wf_set hw3 _ _
            have hbal0f : u0.balance_of f = b.balance_of f := by
              rw [hstage, stageList_bal]
              simp
            have hbal0t : u0.balance_of t = b.balance_of t := by
              rw [hstage, stageList_bal]
              simp
            have hv1 := tokAdd_some hadd
            have hv2 := tokSub_some hsub
            have hv3 := tokAdd_some hto
            have hb1t : u1.balance_of t = b.balance_of t := by
              rw [hu1, Balances.bal_set, if_neg (fun hh => hft hh.symm)]
              exact hbal0t
            have hb4f : u4.balance_of f = ufb := by
              rw [hu4, Balances.bal_set, if_neg hf4, hu3, Balances.bal_set,
                if_neg hf3, hu2, Balances.bal_set, if_neg hft, hu1,
                Balances.bal_set, if_pos rfl]
            have hb4t : u4.balance_of t = utb := by
              rw [hu4, Balances.bal_set, if_neg ht4, hu3, Balances.bal_set,
                if_neg ht3, hu2, Balances.bal_set, if_pos rfl]
            have hufb_ne : ufb ≠ 0 := by
              rw [hbal0f] at hv2
              omega
            have hmemf : f ∈ u4.keys :=
              Balances.mem_keys_of_bal_ne (hb4f ▸ hufb_ne)
            have hbf' : b'.balance_of f = ufb := by
              rw [← hb', Balances.apply_bal hw4, if_pos hmemf, hb4f]
            rw [hbal0f] at hv2
            rw [hb1t] at hv3
            constructor
            · omega
            · by_cases hmt : t ∈ u4.keys
              · have hbt' : b'.balance_of t = utb := by
                  rw [← hb', Balances.apply_bal hw4, if_pos hmt, hb4t]
                omega
              · have hzt : utb = 0 := by
                  have hh := Balances.bal_not_mem hmt
                  rw [hb4t] at hh
                  exact hh
                have hbt' : b'.balance_of t = b.balance_of t := by
                  rw [← hb', Balances.apply_bal hw4, if_neg hmt]
                omega

/-- Counterexample for C8: a fee-inclusive transfer of the sender's whole
balance (gross 1000, fee 100) succeeds, but the sender is not debited the
gross amount — the staged zero balance was dropped from the committed diff
and the stale balance of 1000 remains. -/
theorem include_fee_full_drain_not_debited :
    (transfer_include_fee feeState 1 argsGrossAll 5).2 = .ok 1 ∧
      ¬ ((transfer_include_fee feeState 1 argsGrossAll 5).1.balances.balance_of accA =
        feeState.balances.balance_of accA - argsGrossAll.amount) := by
  decide

/-- C8 (amended): `transfer_include_fee` with gross amount `a` and configured
fee `f` fails with `AmountTooSmall` when `f ≥ a` with no state change; on
success, provided the sender, recipient, fee recipient and auction account
are pairwise distinct and the sender's balance is not exactly the gross
amount (a full drain leaves the stale sender balance in place), the sender
is debited exactly `a` and the recipient credited exactly `a - f`. -/
theorem transfer_include_fee_exact (st : CanisterState) (c : Principal)
    (args : TransferArgs) (now : Nat) :
    (args.amount ≤ st.fee →
      transfer_include_fee st c args now = (st, .error .AmountTooSmall)) ∧
    (∀ st' i, transfer_include_fee st c args now = (st', .ok i) →
      Account.new c args.from_subaccount ≠ args.to_ →
      Account.new c args.from_subaccount ≠ Account.new st.fee_to none →
      Account.new c args.from_subaccount ≠ auction_account →
      args.to_ ≠ Account.new st.fee_to none →
      args.to_ ≠ auction_account →
      st.balances.balance_of (Account.new c args.from_subaccount) ≠ args.amount →
      st'.balances.balance_of (Account.new c args.from_subaccount) + args.amount =
          st.balances.balance_of (Account.new c args.from_subaccount) ∧
        st'.balances.balance_of args.to_ =
          st.balances.balance_of args.to_ + (args.amount - st.fee)) := by
  constructor
  · intro hle
    unfold transfer_include_fee
    dsimp only
    cases hsub : tokSub args.amount st.fee with
    | none => rfl
    | some adj =>
        have hv := tokSub_some hsub
        have hz : adj = 0 := by omega
        dsimp only
        rw [if_pos hz]
  · intro st' i h hd1 hd2 hd3 hd4 hd5 hne
    unfold transfer_include_fee at h
    dsimp only at h
    cases hsub : tokSub args.amount st.fee with
    | none =>
        rw [hsub] at h
        simp [Prod.ext_iff] at h
    | some adj =>
        rw [hsub] at h
        dsimp only at h
        have hv := tokSub_some hsub
        by_cases hz : adj = 0
        · rw [if_pos hz] at h
          simp [Prod.ext_iff] at h
        · rw [if_neg hz] at h
          unfold is20_transfer at h
          dsimp only at h
          simp only [TransferArgs.with_amount] at h
          cases hval : validate_and_get_tx_ts st c
              { args with amount := adj } now with
          | error e =>
              rw [hval] at h
              simp [Prod.ext_iff] at h
          | ok ts =>
              rw [hval] at h
              dsimp only at h
              by_cases hbf : badFeeCheck args.fee st.fee
              · rw [if_pos hbf] at h
                simp [Prod.ext_iff] at h
              · rw [if_neg hbf] at h
                cases hti : transfer_internal st.balances
                    (Account.new c args.from_subaccount) args.to_ adj st.fee
                    (Account.new st.fee_to none) st.fee_ratio with
                | error e =>
                    rw [hti] at h
                    simp [Prod.ext_iff] at h
                | ok b2 =>
                    rw [hti] at h
                    dsimp only at h
                    have hstb : b2 = st'.balances :=
                      congrArg (fun p => p.1.balances) h
                    have hne2 : st.balances.balance_of
                        (Account.new c args.from_subaccount) ≠ adj + st.fee := by
                      omega
                    have hbal := transfer_internal_balances hd1 hd2 hd3 hd4 hd5
                      hne2 hti
                    rw [hstb] at hbal
                    constructor
                    · omega
                    · omega

/-- Witness for C8: the concrete fee-inclusive transfer of gross 200 at fee
100 debits the sender exactly 200 and credits the recipient exactly 100. -/
theorem transfer_include_fee_exact_witness :
    (transfer_include_fee feeState 1 argsGross 5).1.balances.balance_of
        (Account.new 1 none) + 200 =
      feeState.balances.balance_of (Account.new 1 none) ∧
      (transfer_include_fee feeState 1 argsGross 5).1.balances.balance_of accB =
        feeState.balances.balance_of accB + 100 := by
  have h2 : (transfer_include_fee feeState 1 argsGross 5).2 = Except.ok 1 := by
    decide
  have heq : transfer_include_fee feeState 1 argsGross 5 =
      ((transfer_include_fee feeState 1 argsGross 5).1, Except.ok 1) := by
    rw [← h2]
  exact (transfer_include_fee_exact feeState 1 argsGross 5).2
    (transfer_include_fee feeState 1 argsGross 5).1 1 heq (by decide) (by decide)
    (by decide) (by decide) (by decide) (by decide)

end IS20
